import Mathlib

/-!
Verification of the `berachain/abis` ABI-module generation and manifest
pipeline (TypeScript sources under `packages/js/scripts`).

The development shallowly embeds the relevant source functions:

* `lib/naming.ts`  — `splitWords`, `toCamelCase`, `toPascalCase`, `toKebabCase`
* `lib/modules.ts` — `artifactToModule`, `dedupeAndValidateModules`
* `lib/utils.ts`   — `stableStringify`
* `lib/changelog.ts` — `formatParamType`, `formatAbiItemSignature`,
  `parseAbiFromModuleContent`, `buildManifest`, `diffManifests`,
  `resolveBaseVersion` (with the `semver` package's `gte`)
* `lib/discovery.ts` — `matchesAny`, `normalizeDirs`

Modelling conventions: JavaScript strings are modelled as Lean `String`
(positions are character positions; all data handled by the pipeline is
ASCII, where this coincides with UTF-16 code-unit positions).  JSON values
are modelled by the inductive `Json` whose objects are ordered key/value
lists, matching JavaScript's insertion-order object semantics.  Fallible
functions return `Except`/`Option`.  `String.prototype.localeCompare` is
modelled as Unicode code-point comparison `strCmp`; the claims under
verification only use it as "the comparator the code sorts by".

The file is laid out as: all definitions first, then all lemmas and the
claim theorems.
-/

namespace Abis

/-! ## Definitions -/

/-! ### Ordering helpers: code-point string comparison and stable sorting -/

/-- Comparison of characters by code point. -/
def charCmp (a b : Char) : Ordering := compare a.val.toNat b.val.toNat

/-- Lexicographic comparison of character lists by code point. -/
def listCharCmp : List Char → List Char → Ordering
  | [], [] => .eq
  | [], _ :: _ => .lt
  | _ :: _, [] => .gt
  | a :: as, b :: bs =>
    match charCmp a b with
    | .eq => listCharCmp as bs
    | o => o

/-- Model of `a.localeCompare(b)` (and of JavaScript's default string
comparison in `Array.prototype.sort`): lexicographic code-point order.
The identifiers and signatures this repository sorts are ASCII. -/
def strCmp (a b : String) : Ordering := listCharCmp a.toList b.toList

/-- Stable insertion into a list: the new element is placed after every
element that compares strictly below it and before the first element that
does not, which is exactly the tie behaviour of ECMAScript's (stable)
`Array.prototype.sort`. -/
def insertOrd (cmp : α → α → Ordering) (x : α) : List α → List α
  | [] => [x]
  | y :: ys => if cmp y x = .lt then y :: insertOrd cmp x ys else x :: y :: ys

/-- Stable insertion sort, modelling `Array.prototype.sort(comparator)`. -/
def sortOrd (cmp : α → α → Ordering) : List α → List α
  | [] => []
  | x :: xs => insertOrd cmp x (sortOrd cmp xs)

/-! ### `lib/naming.ts` -/

/-- The regex class `[A-Z]`. -/
def upperAZ (c : Char) : Bool := 'A' ≤ c && c ≤ 'Z'

/-- The regex class `[a-z]`. -/
def lowerAZ (c : Char) : Bool := 'a' ≤ c && c ≤ 'z'

/-- The regex class `[0-9]`. -/
def digit09 (c : Char) : Bool := '0' ≤ c && c ≤ '9'

/-- The regex class `[a-zA-Z0-9]`. -/
def alnum (c : Char) : Bool := lowerAZ c || upperAZ c || digit09 c

/-- `input.replace(/([A-Z])([A-Z][a-z])/g, "$1 $2")`: left-to-right,
non-overlapping global replacement, inserting a space between an uppercase
letter and a following uppercase-then-lowercase pair. -/
def boundaryAcronym : List Char → List Char
  | c0 :: c1 :: c2 :: rest =>
    if upperAZ c0 && upperAZ c1 && lowerAZ c2 then
      c0 :: ' ' :: c1 :: c2 :: boundaryAcronym rest
    else
      c0 :: boundaryAcronym (c1 :: c2 :: rest)
  | l => l

/-- `input.replace(/([a-z0-9])([A-Z])/g, "$1 $2")`. -/
def boundaryLowerUpper : List Char → List Char
  | c0 :: c1 :: rest =>
    if (lowerAZ c0 || digit09 c0) && upperAZ c1 then
      c0 :: ' ' :: c1 :: boundaryLowerUpper rest
    else
      c0 :: boundaryLowerUpper (c1 :: rest)
  | l => l

/-- `split(/[^a-zA-Z0-9]+/)`: groups of alphanumeric characters, with an
empty group at each boundary run (exactly the empty strings JavaScript's
`split` produces, later removed by `filter(Boolean)`). -/
def groupAlnum (cs : List Char) : List (List Char) :=
  cs.foldr
    (fun c acc =>
      if alnum c then (c :: acc.headD []) :: acc.tail
      else [] :: acc)
    [[]]

/-- `String.prototype.toLowerCase`, restricted to ASCII (the identifiers the
pipeline names are ASCII). -/
def jsToLower (c : Char) : Char := c.toLower

/-- `splitWords` from `lib/naming.ts`: insert acronym boundaries, insert
lower/digit→upper boundaries, split on non-alphanumeric runs, drop empty
tokens, lowercase each token. -/
def splitWords (input : String) : List String :=
  (((groupAlnum (boundaryLowerUpper (boundaryAcronym input.toList))).filter
      (· ≠ [])).map (fun g => String.mk (g.map jsToLower)))

/-- `p[0].toUpperCase() + p.slice(1)` for the non-empty token `p`. -/
def capitalizeToken (p : String) : String :=
  match p.toList with
  | [] => ""
  | c :: rest => String.mk (c.toUpper :: rest)

/-- `toCamelCase` from `lib/naming.ts`. -/
def toCamelCase (input : String) : String :=
  match splitWords input with
  | [] => "abi"
  | p :: ps => p ++ String.join (ps.map capitalizeToken)

/-- `toPascalCase` from `lib/naming.ts`. -/
def toPascalCase (input : String) : String :=
  match splitWords input with
  | [] => "Contract"
  | parts => String.join (parts.map capitalizeToken)

/-- `toKebabCase` from `lib/naming.ts`. -/
def toKebabCase (input : String) : String :=
  String.intercalate "-" (splitWords input)

/-! ### `lib/discovery.ts`: `normalizeDirs` -/

/-- A TypeScript `string | string[] | undefined` argument. -/
inductive StrOrStrs where
  | undef
  | one (s : String)
  | many (l : List String)

/-- `Array.isArray(x) ? x : [x ?? dflt]`. -/
def wrapDirs (dflt : String) : StrOrStrs → List String
  | .many l => l
  | .one s => [s]
  | .undef => [dflt]

/-- The record returned by `normalizeDirs`. -/
structure NormalizedDirs where
  srcDirs : List String
  outDirs : List String
deriving DecidableEq

/-- `normalizeDirs` from `lib/discovery.ts`; `throw` is modelled as
`Except.error` carrying the error message. -/
def normalizeDirs (srcDir outDir : StrOrStrs) : Except String NormalizedDirs :=
  let srcDirs := wrapDirs "src" srcDir
  let outDirs := wrapDirs "out" outDir
  if srcDirs.length = 0 then
    .error "srcDir must not be an empty array"
  else if outDirs.length > 1 && outDirs.length != srcDirs.length then
    .error ("When both srcDir and outDir are arrays they must have the same length (srcDir: " ++
      toString srcDirs.length ++ ", outDir: " ++ toString outDirs.length ++ ")")
  else
    .ok ⟨srcDirs, if outDirs.length = 1 then srcDirs.map (fun _ => outDirs.headD "") else outDirs⟩

/-! ### Semantic versioning (the `semver` package's `gte`, used by
`resolveBaseVersion` in `lib/changelog.ts`) -/

/-- A parsed semantic version (build metadata is dropped: it does not
participate in precedence). -/
structure SemVer where
  major : Nat
  minor : Nat
  patch : Nat
  prerelease : List String
deriving DecidableEq

/-- Split a character list at every occurrence of `sep`. -/
def splitOnChar (sep : Char) (cs : List Char) : List (List Char) :=
  cs.foldr
    (fun c acc =>
      if c = sep then [] :: acc
      else (c :: acc.headD []) :: acc.tail)
    [[]]

/-- Split at the first occurrence of `sep`: the part before it and, when
`sep` occurs, the part after it. -/
def breakAtFirst (sep : Char) : List Char → List Char × Option (List Char)
  | [] => ([], none)
  | c :: rest =>
    if c = sep then ([], some rest)
    else
      let (pre, post) := breakAtFirst sep rest
      (c :: pre, post)

/-- Numeric value of a digit string. -/
def natOfDigits (cs : List Char) : Nat :=
  cs.foldl (fun n c => n * 10 + (c.toNat - '0'.toNat)) 0

/-- A strict semver numeric identifier: digits only, no leading zeros. -/
def parseNumericId (cs : List Char) : Option Nat :=
  if cs ≠ [] && cs.all digit09 && (cs.length = 1 || cs.headD '0' ≠ '0') then
    some (natOfDigits cs)
  else none

/-- A valid prerelease identifier: non-empty, `[0-9A-Za-z-]` only, and no
leading zeros when fully numeric. -/
def preIdOk (cs : List Char) : Bool :=
  cs ≠ [] && cs.all (fun c => alnum c || c = '-') &&
    (if cs.all digit09 then cs.length = 1 || cs.headD '0' ≠ '0' else true)

/-- A valid build-metadata identifier: non-empty, `[0-9A-Za-z-]` only. -/
def buildIdOk (cs : List Char) : Bool :=
  cs ≠ [] && cs.all (fun c => alnum c || c = '-')

/-- Parse a strict semantic version `MAJOR.MINOR.PATCH[-pre][+build]`
(the grammar accepted by the npm `semver` package in strict mode). -/
def parseSemVer (s : String) : Option SemVer :=
  let (beforeBuild, build) := breakAtFirst '+' s.toList
  let buildOk := match build with
    | none => true
    | some b => (splitOnChar '.' b).all buildIdOk
  let (core, pre) := breakAtFirst '-' beforeBuild
  let preIds := match pre with
    | none => some ([] : List String)
    | some p =>
      let ids := splitOnChar '.' p
      if ids.all preIdOk then some (ids.map String.mk) else none
  match splitOnChar '.' core with
  | [ma, mi, pa] =>
    match parseNumericId ma, parseNumericId mi, parseNumericId pa, preIds, buildOk with
    | some major, some minor, some patch, some prerelease, true =>
      some ⟨major, minor, patch, prerelease⟩
    | _, _, _, _, _ => none
  | _ => none

/-- Compare two prerelease identifiers: numeric identifiers compare
numerically and are lower than alphanumeric ones; alphanumeric identifiers
compare in ASCII order. -/
def cmpPreId (a b : List Char) : Ordering :=
  if a ≠ [] && a.all digit09 then
    if b ≠ [] && b.all digit09 then compare (natOfDigits a) (natOfDigits b)
    else .lt
  else if b ≠ [] && b.all digit09 then .gt
  else listCharCmp a b

/-- Compare two (non-empty) prerelease identifier lists; a longer list with
an equal prefix has higher precedence. -/
def cmpPreList : List (List Char) → List (List Char) → Ordering
  | [], [] => .eq
  | [], _ :: _ => .lt
  | _ :: _, [] => .gt
  | a :: as, b :: bs =>
    match cmpPreId a b with
    | .eq => cmpPreList as bs
    | o => o

/-- Semantic-version precedence. -/
def cmpSemVer (x y : SemVer) : Ordering :=
  match compare x.major y.major with
  | .eq =>
    match compare x.minor y.minor with
    | .eq =>
      match compare x.patch y.patch with
      | .eq =>
        match x.prerelease, y.prerelease with
        | [], [] => .eq
        | [], _ :: _ => .gt
        | _ :: _, [] => .lt
        | a, b => cmpPreList (a.map String.toList) (b.map String.toList)
      | o => o
    | o => o
  | o => o

/-- The npm `semver` package's `gte(a, b)`, which throws (`none`) on an
invalid version string. -/
def semverGte (a b : String) : Option Bool :=
  match parseSemVer a, parseSemVer b with
  | some x, some y => some (cmpSemVer x y ≠ .lt)
  | _, _ => none

/-- JavaScript truthiness of a `string | null` value. -/
def jsTruthyStr : Option String → Bool
  | none => false
  | some s => s != ""

/-- `resolveBaseVersion` from `lib/changelog.ts`.  The injected
`versionLookup` is modelled as a pure function (the two awaited lookups do
not interact).  An uncaught `semver` TypeError on an invalid version is
modelled as `Except.error`; the `console.log` call has no observable
effect on the result and is not modelled. -/
def resolveBaseVersion (packageName tag : String)
    (versionLookup : String → String → Option String) : Except String (Option String) :=
  if tag = "latest" then
    .ok (versionLookup packageName "latest")
  else
    let tagVersion := versionLookup packageName tag
    let latestVersion := versionLookup packageName "latest"
    if jsTruthyStr tagVersion && jsTruthyStr latestVersion then
      match semverGte (latestVersion.getD "") (tagVersion.getD "") with
      | some ge => .ok (some (if ge then latestVersion.getD "" else tagVersion.getD ""))
      | none => .error "TypeError: Invalid Version"
    else
      .ok (match tagVersion with
        | some s => some s
        | none => latestVersion)

/-! ### JSON values

JavaScript values produced by `JSON.parse` (and consumed by
`JSON.stringify` / `stableStringify`).  Objects are ordered key/value
lists, matching JavaScript's insertion-order object semantics; numbers
are kept as their source lexemes (the pipeline never computes with
them). -/

inductive Json where
  | null
  | bool (b : Bool)
  | num (lexeme : String)
  | str (s : String)
  | arr (elems : List Json)
  | obj (fields : List (String × Json))

/-- The `\x7b` character. -/
def obChar : Char := Char.ofNat 123

/-- The `\x7d` character. -/
def cbChar : Char := Char.ofNat 125

/-- One hex digit (lowercase), as printed by `JSON.stringify` escapes. -/
def hexDigit (n : Nat) : Char :=
  if n < 10 then Char.ofNat ('0'.toNat + n) else Char.ofNat ('a'.toNat + n - 10)

/-- `JSON.stringify` escaping of one string character. -/
def escapeChar (c : Char) : List Char :=
  if c = '"' then ['\\', '"']
  else if c = '\\' then ['\\', '\\']
  else if c = '\n' then ['\\', 'n']
  else if c = '\r' then ['\\', 'r']
  else if c = '\t' then ['\\', 't']
  else if c = Char.ofNat 8 then ['\\', 'b']
  else if c = Char.ofNat 12 then ['\\', 'f']
  else if c.toNat < 32 then
    ['\\', 'u', '0', '0', hexDigit (c.toNat / 16), hexDigit (c.toNat % 16)]
  else [c]

/-- `JSON.stringify` of a string value. -/
def quoteString (s : String) : String :=
  "\"" ++ String.mk (s.toList.foldr (fun c acc => escapeChar c ++ acc) []) ++ "\""

/-- `JSON.stringify(value)` for primitive (non-array, non-object) values. -/
def stringifyPrim : Json → String
  | .null => "null"
  | .bool b => cond b "true" "false"
  | .num lex => lex
  | .str s => quoteString s
  | .arr _ => ""
  | .obj _ => ""

mutual

/-- `stableStringify` from `lib/utils.ts`: deterministic JSON rendering
with object keys sorted by `localeCompare`.  (The model renders each field
value before sorting the fields by key; since the sort comparator only
inspects keys, this produces the same string as the source's
sort-then-render.) -/
def stableStringify (j : Json) : String :=
  match j with
  | .arr items =>
    "[" ++ String.intercalate "," (stableStringifyList items) ++ "]"
  | .obj fields =>
    let entries := sortOrd (fun a b => strCmp a.1 b.1) (stableStringifyFields fields)
    String.singleton obChar ++
      String.intercalate "," (entries.map (fun e => quoteString e.1 ++ ":" ++ e.2)) ++
      String.singleton cbChar
  | v => stringifyPrim v

/-- `stableStringify` mapped over array elements. -/
def stableStringifyList : List Json → List String
  | [] => []
  | j :: js => stableStringify j :: stableStringifyList js

/-- `stableStringify` mapped over object field values (keys kept). -/
def stableStringifyFields : List (String × Json) → List (String × String)
  | [] => []
  | (k, v) :: fs => (k, stableStringify v) :: stableStringifyFields fs

end

/-- The two-space indentation prefix at nesting depth `n` used by
`JSON.stringify(value, null, 2)`. -/
def indentStr (n : Nat) : String := String.mk (List.replicate (2 * n) ' ')

mutual

/-- `JSON.stringify(value, null, 2)` (the serialization used by
`artifactToModule`): insertion-order keys, two-space indented. -/
def jsonStringifyIndent (depth : Nat) (j : Json) : String :=
  match j with
  | .arr [] => "[]"
  | .arr items =>
    "[\n" ++
      String.intercalate ",\n" (jsonStringifyIndentList (depth + 1) items) ++
      "\n" ++ indentStr depth ++ "]"
  | .obj [] => String.singleton obChar ++ String.singleton cbChar
  | .obj fields =>
    String.singleton obChar ++ "\n" ++
      String.intercalate ",\n" (jsonStringifyIndentFields (depth + 1) fields) ++
      "\n" ++ indentStr depth ++ String.singleton cbChar
  | v => stringifyPrim v

/-- Indented rendering of array elements. -/
def jsonStringifyIndentList (depth : Nat) : List Json → List String
  | [] => []
  | j :: js => (indentStr depth ++ jsonStringifyIndent depth j) :: jsonStringifyIndentList depth js

/-- Indented rendering of object members (`"key": value`). -/
def jsonStringifyIndentFields (depth : Nat) : List (String × Json) → List String
  | [] => []
  | (k, v) :: fs =>
    (indentStr depth ++ quoteString k ++ ": " ++ jsonStringifyIndent depth v) ::
      jsonStringifyIndentFields depth fs

end

/-- `JSON.stringify(value, null, 2)` at the top level. -/
def jsonStringifyPretty (j : Json) : String := jsonStringifyIndent 0 j

/-! ### JSON parsing (`JSON.parse`)

A recursive-descent parser over character lists with explicit fuel (the
fuel is an upper bound on the call depth, which grows at most twice per
consumed character).  String escapes `\uXXXX` are decoded to the code
point when it is a valid scalar value (JavaScript's lone surrogates have
no `Char` counterpart and decode to `\u0000` here; the pipeline's data is
ASCII). -/

/-- JSON insignificant whitespace. -/
def isJsonWs (c : Char) : Bool := c = ' ' || c = '\t' || c = '\n' || c = '\r'

/-- Skip insignificant whitespace. -/
def skipWs (cs : List Char) : List Char := cs.dropWhile isJsonWs

/-- Hex digit value. -/
def hexVal (c : Char) : Option Nat :=
  if '0' ≤ c ∧ c ≤ '9' then some (c.toNat - '0'.toNat)
  else if 'a' ≤ c ∧ c ≤ 'f' then some (c.toNat - 'a'.toNat + 10)
  else if 'A' ≤ c ∧ c ≤ 'F' then some (c.toNat - 'A'.toNat + 10)
  else none

/-- Parse the body of a JSON string literal (after the opening quote). -/
def parseJsonStringBody (acc : List Char) : List Char → Option (String × List Char)
  | [] => none
  | '"' :: rest => some (String.mk acc.reverse, rest)
  | '\\' :: rest =>
    match rest with
    | '"' :: r => parseJsonStringBody ('"' :: acc) r
    | '\\' :: r => parseJsonStringBody ('\\' :: acc) r
    | '/' :: r => parseJsonStringBody ('/' :: acc) r
    | 'b' :: r => parseJsonStringBody (Char.ofNat 8 :: acc) r
    | 'f' :: r => parseJsonStringBody (Char.ofNat 12 :: acc) r
    | 'n' :: r => parseJsonStringBody ('\n' :: acc) r
    | 'r' :: r => parseJsonStringBody ('\r' :: acc) r
    | 't' :: r => parseJsonStringBody ('\t' :: acc) r
    | 'u' :: h1 :: h2 :: h3 :: h4 :: r =>
      match hexVal h1, hexVal h2, hexVal h3, hexVal h4 with
      | some a, some b, some c, some d =>
        parseJsonStringBody (Char.ofNat (((a * 16 + b) * 16 + c) * 16 + d) :: acc) r
      | _, _, _, _ => none
    | _ => none
  | c :: rest =>
    if c.toNat < 32 then none else parseJsonStringBody (c :: acc) rest

/-- Parse a JSON number, returning its lexeme. -/
def parseJsonNumber (cs : List Char) : Option (String × List Char) :=
  let (sign, cs1) := match cs with
    | '-' :: r => (['-'], r)
    | _ => ([], cs)
  match cs1 with
  | '0' :: r => afterInt (sign ++ ['0']) r
  | c :: _ =>
    if digit09 c ∧ c ≠ '0' then
      let digits := cs1.takeWhile digit09
      afterInt (sign ++ digits) (cs1.dropWhile digit09)
    else none
  | [] => none
where
  /-- Optional fraction and exponent after the integer part. -/
  afterInt (lex : List Char) (cs : List Char) : Option (String × List Char) :=
    let (lex1, cs1) := match cs with
      | '.' :: r =>
        let frac := r.takeWhile digit09
        if frac = [] then ([], ([] : List Char)) else (lex ++ '.' :: frac, r.dropWhile digit09)
      | _ => (lex, cs)
    if lex1 = [] then none
    else
      match cs1 with
      | e :: r =>
        if e = 'e' ∨ e = 'E' then
          let (sgn, r1) := match r with
            | '+' :: rr => (['+'], rr)
            | '-' :: rr => (['-'], rr)
            | _ => ([], r)
          let digits := r1.takeWhile digit09
          if digits = [] then none
          else some (String.mk (lex1 ++ e :: sgn ++ digits), r1.dropWhile digit09)
        else some (String.mk lex1, cs1)
      | [] => some (String.mk lex1, [])

mutual

/-- Parse one JSON value (leading whitespace already skipped). -/
def parseJsonValue : Nat → List Char → Option (Json × List Char)
  | 0, _ => none
  | _ + 1, 'n' :: 'u' :: 'l' :: 'l' :: rest => some (.null, rest)
  | _ + 1, 't' :: 'r' :: 'u' :: 'e' :: rest => some (.bool true, rest)
  | _ + 1, 'f' :: 'a' :: 'l' :: 's' :: 'e' :: rest => some (.bool false, rest)
  | _ + 1, '"' :: rest =>
    match parseJsonStringBody [] rest with
    | some (s, r) => some (.str s, r)
    | none => none
  | fuel + 1, '[' :: rest => parseJsonArrayItems fuel [] (skipWs rest)
  | fuel + 1, c :: rest =>
    if c = obChar then parseJsonObjectFields fuel [] (skipWs rest)
    else
      match parseJsonNumber (c :: rest) with
      | some (lex, r) => some (.num lex, r)
      | none => none
  | _ + 1, [] => none

/-- Parse array elements up to the closing bracket. -/
def parseJsonArrayItems : Nat → List Json → List Char → Option (Json × List Char)
  | 0, _, _ => none
  | _ + 1, acc, ']' :: rest =>
    if acc.isEmpty then some (.arr [], rest) else none
  | fuel + 1, acc, cs =>
    match parseJsonValue fuel cs with
    | some (v, r) =>
      match skipWs r with
      | ',' :: r2 => parseJsonArrayItems fuel (acc ++ [v]) (skipWs r2)
      | ']' :: r2 => some (.arr (acc ++ [v]), r2)
      | _ => none
    | none => none

/-- Parse object members up to the closing brace; duplicate keys follow
JavaScript assignment semantics (the last value wins, at the first key's
position). -/
def parseJsonObjectFields : Nat → List (String × Json) → List Char → Option (Json × List Char)
  | 0, _, _ => none
  | fuel + 1, acc, c :: rest =>
    if c = cbChar then
      if acc.isEmpty then some (.obj [], rest) else none
    else if c = '"' then
      match parseJsonStringBody [] rest with
      | some (k, r) =>
        match skipWs r with
        | ':' :: r2 =>
          match parseJsonValue fuel (skipWs r2) with
          | some (v, r3) =>
            let acc1 := if acc.any (·.1 = k) then
                acc.map (fun e => if e.1 = k then (k, v) else e)
              else acc ++ [(k, v)]
            match skipWs r3 with
            | ',' :: r4 =>
              match skipWs r4 with
              | '"' :: r5 => parseJsonObjectFields fuel acc1 ('"' :: r5)
              | _ => none
            | c2 :: r4 =>
              if c2 = cbChar then some (.obj acc1, r4) else none
            | [] => none
          | none => none
        | _ => none
      | none => none
    else none
  | _ + 1, _, [] => none

end

/-- `JSON.parse`: the whole input must be one JSON value surrounded only
by whitespace. -/
def jsonParse (s : String) : Option Json :=
  let cs := skipWs s.toList
  match parseJsonValue (2 * s.length + 8) cs with
  | some (v, rest) => if skipWs rest = [] then some v else none
  | none => none

/-! ### `lib/types.ts` records and `lib/modules.ts` -/

/-- The `GeneratedModule` record from `lib/types.ts`. -/
structure GeneratedModule where
  sourceId : String
  contractName : String
  exportName : String
  moduleRelPath : String
  dedupeKey : String
  moduleContent : String
deriving DecidableEq

/-- The `DiscoveredArtifact` record from `lib/types.ts` (the `abi` field is
the parsed JSON interface array). -/
structure DiscoveredArtifact where
  sourceId : String
  filePath : String
  contractName : String
  relDir : String
  abi : List Json

/-- `path.posix.join` of two plain relative segments.  (The general
function also collapses `.`/`..` and repeated slashes; the pipeline joins
plain directory names and file names, where `join` is concatenation with
a single separator.) -/
def posixJoin (a b : String) : String :=
  if a = "" then b else if b = "" then a else a ++ "/" ++ b

/-- `artifactToModule` from `lib/modules.ts`. -/
def artifactToModule (artifact : DiscoveredArtifact) (mainSource : Option String) :
    GeneratedModule :=
  let exportName := toCamelCase artifact.contractName ++ "Abi"
  let fileName := toCamelCase artifact.contractName ++ ".ts"
  let innerPath := if artifact.relDir = "." then fileName
    else posixJoin artifact.relDir fileName
  let isMain := mainSource = some artifact.sourceId
  let moduleRelPath := if isMain then innerPath else posixJoin artifact.sourceId innerPath
  let abiContent := jsonStringifyPretty (.arr artifact.abi)
  { sourceId := artifact.sourceId
    contractName := artifact.contractName
    exportName := exportName
    moduleRelPath := moduleRelPath
    dedupeKey := artifact.sourceId ++ ":" ++ artifact.contractName
    moduleContent := "export const " ++ exportName ++ " = " ++ abiContent ++
      " as const;\n\nexport default " ++ exportName ++ ";\n" }

/-- The comparator of `dedupeAndValidateModules`'s final sort:
`a.sourceId.localeCompare(b.sourceId) || a.contractName.localeCompare(b.contractName) ||
a.moduleRelPath.localeCompare(b.moduleRelPath)` (`||` on comparator results
is "first non-zero", i.e. `Ordering.then`). -/
def moduleCmp (a b : GeneratedModule) : Ordering :=
  match strCmp a.sourceId b.sourceId with
  | .eq =>
    match strCmp a.contractName b.contractName with
    | .eq => strCmp a.moduleRelPath b.moduleRelPath
    | o => o
  | o => o

/-- The loop of `dedupeAndValidateModules`: `byKey` is the insertion-order
`Map`, `warnings` the accumulated warning list. -/
def dedupeGo (byKey : List (String × GeneratedModule)) (warnings : List String) :
    List GeneratedModule → Except String (List (String × GeneratedModule) × List String)
  | [] => .ok (byKey, warnings)
  | m :: rest =>
    match byKey.find? (·.1 = m.dedupeKey) with
    | none => dedupeGo (byKey ++ [(m.dedupeKey, m)]) warnings rest
    | some e =>
      if e.2.moduleContent = m.moduleContent then
        dedupeGo byKey (warnings ++ ["Duplicate ABI ignored for " ++ m.dedupeKey]) rest
      else
        .error ("ABI collision for " ++ m.dedupeKey ++
          ": same source and contractName produced different ABI content")

/-- `dedupeAndValidateModules` from `lib/modules.ts`; the `throw` is
modelled as `Except.error` carrying the message. -/
def dedupeAndValidateModules (modules : List GeneratedModule) :
    Except String (List GeneratedModule × List String) :=
  (dedupeGo [] [] modules).map
    (fun r => (sortOrd moduleCmp (r.1.map (·.2)), r.2))

/-! ### `lib/changelog.ts`: ABI items, signature formatting, manifests -/

/-- An ABI parameter as read by the changelog formatter: only its `type`,
`indexed` flag and `components` are ever accessed (`formatParamType` never
reads a parameter's `name`). -/
inductive AbiParam where
  | mk (type : String) (indexed : Bool) (components : List AbiParam)

/-- The `type` field of a parameter. -/
def AbiParam.type : AbiParam → String
  | .mk t _ _ => t

/-- The `indexed` field of a parameter. -/
def AbiParam.indexed : AbiParam → Bool
  | .mk _ i _ => i

/-- The `components` field of a parameter. -/
def AbiParam.components : AbiParam → List AbiParam
  | .mk _ _ c => c

/-- An ABI item as read by `formatAbiItemSignature` (the `AbiItem` type of
`lib/changelog.ts`): `name` holds the JavaScript template rendering
`${item.name}` (so `"undefined"` when the field is absent), and
`stateMutability` holds `item.stateMutability ?? ""`. -/
structure AbiItem where
  type : String
  name : String
  inputs : List AbiParam
  outputs : List AbiParam
  stateMutability : String

/-- JavaScript property lookup on a parsed-JSON object (parsed objects
have unique keys, so first match is the value). -/
def getField (fields : List (String × Json)) (k : String) : Option Json :=
  (fields.find? (fun e => e.1 = k)).map (·.2)

/-- JavaScript truthiness of a possibly-absent JSON value (used for
`param.indexed`).  Numeric truthiness is approximated by `lexeme ≠ "0"`;
`indexed` flags in real artifacts are booleans. -/
def jsTruthy : Option Json → Bool
  | none => false
  | some .null => false
  | some (.bool b) => b
  | some (.num lex) => lex != "0"
  | some (.str s) => s != ""
  | some (.arr _) => true
  | some (.obj _) => true

/-- The string a JavaScript template literal renders for a possibly-absent
parsed-JSON value (array/object renderings are approximated; item names in
real artifacts are strings). -/
def jsTemplate : Option Json → String
  | none => "undefined"
  | some .null => "null"
  | some (.bool b) => cond b "true" "false"
  | some (.num lex) => lex
  | some (.str s) => s
  | some (.arr _) => ""
  | some (.obj _) => "[object Object]"

/-- The `type` field as used in `===` comparisons and `startsWith`: absent
or non-string values match no recognized kind (modelled as `""`). -/
def decodeTypeField (fields : List (String × Json)) : String :=
  match getField fields "type" with
  | some (.str s) => s
  | _ => ""

mutual

/-- View a parsed-JSON parameter as an `AbiParam`: exactly the three
fields the formatter reads; in particular a parameter's `"name"` field is
never read. -/
def decodeParam : Json → AbiParam
  | .obj fields =>
    .mk (decodeTypeField fields) (jsTruthy (getField fields "indexed"))
      (decodeComponentsField fields)
  | _ => .mk "" false []

/-- Find the `"components"` field and decode it (absent or non-array
`components` contribute no components, as `?? []` does). -/
def decodeComponentsField : List (String × Json) → List AbiParam
  | [] => []
  | (k, v) :: rest =>
    if k = "components" then
      match v with
      | .arr items => decodeParamList items
      | _ => []
    else decodeComponentsField rest

/-- Decode a parameter array. -/
def decodeParamList : List Json → List AbiParam
  | [] => []
  | j :: js => decodeParam j :: decodeParamList js

end

/-- View a parsed-JSON ABI item as an `AbiItem` (`inputs ?? []`,
`outputs ?? []`, `stateMutability ?? ""`). -/
def decodeItem : Json → AbiItem
  | .obj fields =>
    { type := decodeTypeField fields
      name := jsTemplate (getField fields "name")
      inputs := match getField fields "inputs" with
        | some (.arr items) => decodeParamList items
        | _ => []
      outputs := match getField fields "outputs" with
        | some (.arr items) => decodeParamList items
        | _ => []
      stateMutability := match getField fields "stateMutability" with
        | some (.str s) => s
        | _ => "" }
  | _ => ⟨"", "undefined", [], [], ""⟩

/-- `str.startsWith(pre)` (JavaScript), computed on character lists. -/
def jsStartsWith (s pre : String) : Bool := pre.toList.isPrefixOf s.toList

mutual

/-- `formatParamType` from `lib/changelog.ts`: tuples expand their
components recursively, keeping the `[]`/`[N]` suffix after `"tuple"`;
`" indexed"` is appended only at the top level of event parameters. -/
def formatParamType (p : AbiParam) (includeIndexed : Bool) : String :=
  match p with
  | .mk ty ind comps =>
    let result :=
      if ty = "tuple" || jsStartsWith ty "tuple[" then
        "(" ++ String.intercalate "," (formatParamTypeList comps) ++ ")" ++
          String.mk (ty.toList.drop 5)
      else ty
    if includeIndexed && ind then result ++ " indexed" else result

/-- `components.map((c) => formatParamType(c, false))`. -/
def formatParamTypeList : List AbiParam → List String
  | [] => []
  | p :: ps => formatParamType p false :: formatParamTypeList ps

end

/-- `formatAbiItemSignature` from `lib/changelog.ts`: `none` models the
`null` return for unrecognized item kinds. -/
def formatAbiItemSignature (item : AbiItem) : Option String :=
  let params := String.intercalate "," (item.inputs.map (formatParamType · false))
  match item.type with
  | "function" =>
    let outputs := String.intercalate "," (item.outputs.map (formatParamType · false))
    let ret := if outputs.length > 0 then " returns (" ++ outputs ++ ")" else ""
    some ("function " ++ item.name ++ "(" ++ params ++ ")" ++
      (if item.stateMutability ≠ "" then " " ++ item.stateMutability else "") ++ ret)
  | "event" =>
    some ("event " ++ item.name ++ "(" ++
      String.intercalate "," (item.inputs.map (formatParamType · true)) ++ ")")
  | "error" => some ("error " ++ item.name ++ "(" ++ params ++ ")")
  | "constructor" =>
    some ("constructor(" ++ params ++ ")" ++
      (if item.stateMutability ≠ "" then " " ++ item.stateMutability else ""))
  | "fallback" => some "fallback()"
  | "receive" => some "receive()"
  | _ => none

/-- First index of a character (`content.indexOf("[")`). -/
def indexOfChar (c : Char) (cs : List Char) : Option Nat := cs.findIdx? (· = c)

/-- Start index of the last occurrence of `sub`
(`content.lastIndexOf("] as const;")`). -/
def lastIndexOfSub (sub : List Char) (cs : List Char) : Option Nat :=
  go cs 0 none
where
  go : List Char → Nat → Option Nat → Option Nat
    | l, i, best =>
      let best1 := if sub.isPrefixOf l then some i else best
      match l with
      | [] => best1
      | _ :: rest => go rest (i + 1) best1

/-- The extraction step of `parseAbiFromModuleContent`: slice the content
between the first `[` and the last `] as const;` and `JSON.parse` it; the
slice begins with `[`, so a successful parse is an array. -/
def parseAbiJsonItems (content : String) : Option (List Json) :=
  match indexOfChar '[' content.toList,
      lastIndexOfSub ("] as const;".toList) content.toList with
  | some start, some endi =>
    match jsonParse (String.mk ((content.toList.drop start).take (endi + 1 - start))) with
    | some (.arr items) => some items
    | _ => none
  | _, _ => none

/-- `parseAbiFromModuleContent` from `lib/changelog.ts`: extract the JSON
between the first `[` and the last `] as const;` and parse it.  The
`as Abi` cast performs no runtime validation, so the resulting JavaScript
values are simply viewed through the fields the formatter reads
(`decodeItem`). -/
def parseAbiFromModuleContent (content : String) : Option (List AbiItem) :=
  (parseAbiJsonItems content).map (fun items => items.map decodeItem)

/-- `mod.moduleRelPath.replace(/\.ts$/, "")`: drop a final `.ts`,
computed on character lists. -/
def stripTs (s : String) : String :=
  let cs := s.toList
  if ['.', 't', 's'].isSuffixOf cs then String.mk (cs.take (cs.length - 3)) else s

/-- JavaScript object-assignment semantics: an existing key keeps its
position and takes the new value, a new key is appended. -/
def jsAssign (acc : List (String × β)) (k : String) (v : β) : List (String × β) :=
  if acc.any (·.1 = k) then acc.map (fun e => if e.1 = k then (k, v) else e)
  else acc ++ [(k, v)]

/-- `Object.fromEntries`: left-to-right object assignment. -/
def jsFromEntries (es : List (String × β)) : List (String × β) :=
  es.foldl (fun acc e => jsAssign acc e.1 e.2) []

/-- `buildManifest` from `lib/changelog.ts`: unparseable module contents
are skipped (`if (!abi) continue`); signatures are the non-`null`
formatted items, sorted; entries are sorted by key and assembled into an
object. -/
def buildManifest (modules : List GeneratedModule) : List (String × List String) :=
  jsFromEntries (sortOrd (fun a b => strCmp a.1 b.1)
    (modules.filterMap (fun mod =>
      match parseAbiFromModuleContent mod.moduleContent with
      | none => none
      | some abi =>
        some (stripTs mod.moduleRelPath,
          sortOrd strCmp (abi.filterMap formatAbiItemSignature)))))

/-- JavaScript `Set` iteration order: first occurrences, in input order. -/
def jsSetList [DecidableEq α] : List α → List α
  | [] => []
  | x :: xs => x :: jsSetList (xs.filter (· ≠ x))
termination_by l => l.length
decreasing_by
  simp only [List.length_cons]
  exact Nat.lt_succ_of_le (List.length_filter_le _ _)

/-- `previous[key]` on a manifest (manifest keys are unique). -/
def lookupD (m : List (String × List String)) (k : String) : List String :=
  ((m.find? (·.1 = k)).map (·.2)).getD []

/-- The `ManifestDiff` record: `changed` maps an export path to its
`(added, removed)` signature sublists, in `Map` insertion order. -/
structure ManifestDiff where
  added : List String
  removed : List String
  changed : List (String × List String × List String)
deriving DecidableEq

/-- `diffManifests` from `lib/changelog.ts`. -/
def diffManifests (previous current : List (String × List String)) : ManifestDiff :=
  let prevKeys := jsSetList (previous.map (·.1))
  let currKeys := jsSetList (current.map (·.1))
  let added := sortOrd strCmp (currKeys.filter (fun k => !prevKeys.contains k))
  let removed := sortOrd strCmp (prevKeys.filter (fun k => !currKeys.contains k))
  let changed := currKeys.filterMap (fun key =>
    if prevKeys.contains key then
      let prevSigs := jsSetList (lookupD previous key)
      let currSigs := jsSetList (lookupD current key)
      let itemsAdded := sortOrd strCmp (currSigs.filter (fun s => !prevSigs.contains s))
      let itemsRemoved := sortOrd strCmp (prevSigs.filter (fun s => !currSigs.contains s))
      if itemsAdded.length > 0 ∨ itemsRemoved.length > 0 then
        some (key, itemsAdded, itemsRemoved)
      else none
    else none)
  ⟨added, removed, changed⟩

/-! ### `lib/discovery.ts`: `matchesAny`

`matchesAny` builds a `RegExp` from each pattern by escaping the regex
specials `.+^$\x7b\x7d()|[]\`, replacing `*` with `.*` and `?` with `.`,
and anchoring with `^...$`.  The model compiles the pattern through the
same three character-level rewrites and runs the resulting regex (a
sequence of literal, `.`, and `.*` tokens) with JavaScript semantics:
`.` does not match line terminators, and `^`/`$` (no `m` flag) anchor at
the ends of the whole string.  `new RegExp` cannot fail on these compiled
sources, so the function is total. -/

/-- The character class `[.+^${}()|[\]\\]` escaped by `matchesAny`. -/
def regexSpecials : List Char :=
  ['.', '+', '^', '$', obChar, cbChar, '(', ')', '|', '[', ']', '\\']

/-- `pattern.replace(/[.+^${}()|[\]\\]/g, "\\$&")`. -/
def escapeRegExp (cs : List Char) : List Char :=
  cs.foldr (fun c acc => (if c ∈ regexSpecials then ['\\', c] else [c]) ++ acc) []

/-- `.replace(/\*/g, ".*")`. -/
def replaceStar (cs : List Char) : List Char :=
  cs.foldr (fun c acc => (if c = '*' then ['.', '*'] else [c]) ++ acc) []

/-- `.replace(/\?/g, ".")`. -/
def replaceQm (cs : List Char) : List Char :=
  cs.foldr (fun c acc => (if c = '?' then ['.'] else [c]) ++ acc) []

/-- The regex source built from a pattern (between the `^` and `$`). -/
def compileGlobRegex (pattern : List Char) : List Char :=
  replaceQm (replaceStar (escapeRegExp pattern))

/-- A token of the compiled regexes: a literal character, `.`, or `.*`. -/
inductive RegexTok where
  | lit (c : Char)
  | dot
  | dotStar
deriving DecidableEq

/-- Read a compiled regex source into tokens (`\c` is a literal, `.*` a
Kleene-starred dot, `.` a dot; everything else is literal). -/
def tokenizeRegex : List Char → List RegexTok
  | [] => []
  | c :: rest =>
    if c = '\\' then
      match rest with
      | d :: rest2 => .lit d :: tokenizeRegex rest2
      | [] => []
    else if c = '.' then
      match rest with
      | d :: rest2 =>
        if d = '*' then .dotStar :: tokenizeRegex rest2
        else .dot :: tokenizeRegex (d :: rest2)
      | [] => [.dot]
    else .lit c :: tokenizeRegex rest
termination_by cs => cs.length
decreasing_by
  all_goals (try simp only [List.length_cons]); omega

/-- JavaScript line terminators (not matched by `.`). -/
def isLineTerm (c : Char) : Bool :=
  c = '\n' || c = '\r' || c = Char.ofNat 0x2028 || c = Char.ofNat 0x2029

mutual

/-- Run a token-sequence regex anchored at both ends. -/
def matchToks : List RegexTok → List Char → Bool
  | [], [] => true
  | [], _ :: _ => false
  | .lit c :: ts, d :: ds => c = d && matchToks ts ds
  | .lit _ :: _, [] => false
  | .dot :: ts, d :: ds => !isLineTerm d && matchToks ts ds
  | .dot :: _, [] => false
  | .dotStar :: ts, cs => matchToksStar ts cs
termination_by ts cs => 2 * ts.length + 2 * cs.length + 1
decreasing_by
  all_goals (try simp only [List.length_cons]); omega

/-- `.*` then `ts`: match `ts` here, or consume one non-terminator. -/
def matchToksStar (ts : List RegexTok) (cs : List Char) : Bool :=
  matchToks ts cs ||
    match cs with
    | [] => false
    | d :: ds => !isLineTerm d && matchToksStar ts ds
termination_by 2 * ts.length + 2 * cs.length + 2
decreasing_by
  all_goals (try simp only [List.length_cons]); omega

end

/-- `matchesAny` from `lib/discovery.ts`: each pattern is compiled to an
anchored regex and tested against the relative path (when the pattern
contains `/` and a relative path was passed) or the bare filename. -/
def matchesAny (filename : String) (patterns : List String) (relPath : Option String) : Bool :=
  patterns.any (fun pattern =>
    let toks := tokenizeRegex (compileGlobRegex pattern.toList)
    let target := if pattern.toList.contains '/' then relPath.getD filename else filename
    matchToks toks target.toList)

/-- Direct glob matching as the claim describes it, with a switch for the
amended semantics: `*` matches zero or more characters and `?` exactly
one; when `excludeLineTerms` is set, the characters consumed by `*`/`?`
must not be line terminators (which is what the compiled JavaScript
regexes actually enforce). -/
def globMatchChars (excludeLineTerms : Bool) : List Char → List Char → Bool
  | [], [] => true
  | [], _ :: _ => false
  | '*' :: ps, cs =>
    globMatchChars excludeLineTerms ps cs ||
      match cs with
      | [] => false
      | d :: ds =>
        (!excludeLineTerms || !isLineTerm d) && globMatchChars excludeLineTerms ('*' :: ps) ds
  | '?' :: _, [] => false
  | '?' :: ps, d :: ds =>
    (!excludeLineTerms || !isLineTerm d) && globMatchChars excludeLineTerms ps ds
  | _ :: _, [] => false
  | c :: ps, d :: ds => c = d && globMatchChars excludeLineTerms ps ds
termination_by p cs => 2 * cs.length + p.length
decreasing_by
  all_goals (try simp only [List.length_cons]); omega

/-- The claim's reading of `matchesAny`: `*` matches zero or more
characters and `?` exactly one character, with per-pattern target
dispatch on the presence of a path separator. -/
def matchesAnySpec (filename : String) (patterns : List String) (relPath : Option String) :
    Bool :=
  patterns.any (fun pattern =>
    let target := if pattern.toList.contains '/' then relPath.getD filename else filename
    globMatchChars false pattern.toList target.toList)

/-- The token a single glob character compiles to: `*` becomes `.*`, `?`
becomes `.`, and every other character (escaped or not) a literal. -/
def tokOf (c : Char) : RegexTok :=
  if c = '*' then .dotStar else if c = '?' then .dot else .lit c

/-! ### Statement vocabulary for the claim theorems -/

mutual

/-- Erase every `"name"` field of a parameter object, recursing into its
`components` (used to state that parameter names never influence
signatures). -/
def stripParamName : Json → Json
  | .obj fields => .obj (stripParamNameFields fields)
  | j => j

/-- Field-list worker of `stripParamName`. -/
def stripParamNameFields : List (String × Json) → List (String × Json)
  | [] => []
  | (k, v) :: rest =>
    if k = "name" then stripParamNameFields rest
    else if k = "components" then (k, stripParamArr v) :: stripParamNameFields rest
    else (k, v) :: stripParamNameFields rest

/-- Erase parameter names inside an array of parameters. -/
def stripParamArr : Json → Json
  | .arr items => .arr (stripParamList items)
  | j => j

/-- `stripParamName` mapped over a list. -/
def stripParamList : List Json → List Json
  | [] => []
  | j :: js => stripParamName j :: stripParamList js

end

/-- Erase every parameter name of an ABI item (the item's own `"name"`
field — the function/event/error name — is kept). -/
def stripItemParamNames : Json → Json
  | .obj fields =>
    .obj (fields.map (fun e =>
      if e.1 = "inputs" ∨ e.1 = "outputs" then (e.1, stripParamArr e.2) else e))
  | j => j

/-- The value a JavaScript object holds at `k` after assigning the entries
of `es` in order: the last assigned value. -/
def lastVal (es : List (String × β)) (k : String) : Option β :=
  es.foldl (fun acc e => if e.1 = k then some e.2 else acc) none

/-- The manifest entry a (parseable) module contributes: its export path
(`moduleRelPath` minus `.ts`) and its sorted signature list. -/
def moduleManifestEntry (mod : GeneratedModule) : String × List String :=
  (stripTs mod.moduleRelPath,
    sortOrd strCmp
      (((parseAbiFromModuleContent mod.moduleContent).getD []).filterMap
        formatAbiItemSignature))

/-- "No collision": every module's content is byte-identical to the content
of the first module in the list sharing its dedupe key. -/
def noCollisionB (ms : List GeneratedModule) : Bool :=
  ms.all (fun m =>
    match ms.find? (·.dedupeKey = m.dedupeKey) with
    | some m₀ => m.moduleContent = m₀.moduleContent
    | none => true)

/-- The first module seen for each dedupe key, in first-seen order. -/
def firstOccs : List GeneratedModule → List GeneratedModule
  | [] => []
  | m :: rest => m :: firstOccs (rest.filter (·.dedupeKey ≠ m.dedupeKey))
termination_by l => l.length
decreasing_by
  simp only [List.length_cons]
  exact Nat.lt_succ_of_le (List.length_filter_le _ _)

/-- The modules that repeat an already-seen dedupe key, in input order
(`seen` is the list of keys seen so far). -/
def dupsAfter (seen : List String) : List GeneratedModule → List GeneratedModule
  | [] => []
  | m :: rest =>
    if seen.contains m.dedupeKey then m :: dupsAfter seen rest
    else dupsAfter (seen ++ [m.dedupeKey]) rest

/-- The later modules with an already-seen dedupe key. -/
def laterDups (ms : List GeneratedModule) : List GeneratedModule := dupsAfter [] ms

/-- The kept `(key, module)` entries computed by the dedupe loop (the
`Map` contents), starting from `byKey`. -/
def collectKept (byKey : List (String × GeneratedModule)) :
    List GeneratedModule → List (String × GeneratedModule)
  | [] => byKey
  | m :: rest =>
    match byKey.find? (·.1 = m.dedupeKey) with
    | none => collectKept (byKey ++ [(m.dedupeKey, m)]) rest
    | some _ => collectKept byKey rest

/-- The warnings emitted by the dedupe loop, starting from `byKey`. -/
def collectWarns (byKey : List (String × GeneratedModule)) :
    List GeneratedModule → List String
  | [] => []
  | m :: rest =>
    match byKey.find? (·.1 = m.dedupeKey) with
    | none => collectWarns (byKey ++ [(m.dedupeKey, m)]) rest
    | some e =>
      if e.2.moduleContent = m.moduleContent then
        ("Duplicate ABI ignored for " ++ m.dedupeKey) :: collectWarns byKey rest
      else collectWarns byKey rest

/-- The first module whose content conflicts with the kept module for its
key, starting from `byKey`. -/
def firstConflict (byKey : List (String × GeneratedModule)) :
    List GeneratedModule → Option GeneratedModule
  | [] => none
  | m :: rest =>
    match byKey.find? (·.1 = m.dedupeKey) with
    | none => firstConflict (byKey ++ [(m.dedupeKey, m)]) rest
    | some e =>
      if e.2.moduleContent = m.moduleContent then firstConflict byKey rest
      else some m

/-- Witness data: a module exporting at `a.ts` with an empty interface. -/
def wModEmpty : GeneratedModule :=
  ⟨"s", "C", "cAbi", "a.ts", "s:C", "[] as const;"⟩

/-- Witness data: a module exporting at `a.ts` whose interface holds one
`fallback` item. -/
def wModFallback : GeneratedModule :=
  ⟨"s", "C", "cAbi", "a.ts", "s:C",
    "[\x7b\"type\":\"fallback\"\x7d] as const;"⟩

/-- Witness data: a module at `a.ts` whose content contains no `[` at all
(unparseable). -/
def wModBad : GeneratedModule :=
  ⟨"s", "C", "cAbi", "a.ts", "s:C", "zzz"⟩

/-- Witness data: a parseable module at the distinct path `b.ts`. -/
def wModOther : GeneratedModule :=
  ⟨"s", "D", "dAbi", "b.ts", "s:D", "[] as const;"⟩

/-- Witness data: a module whose single function takes one `address`
parameter named `"a"`. -/
def wModParamA : GeneratedModule :=
  ⟨"s", "C", "cAbi", "a.ts", "s:C",
    "export const cAbi = [\x7b\"type\":\"function\",\"name\":\"f\"," ++
      "\"inputs\":[\x7b\"name\":\"a\",\"type\":\"address\"\x7d]\x7d] as const;\n"⟩

/-- Witness data: the same module with the parameter renamed to
`"recipient"`. -/
def wModParamB : GeneratedModule :=
  ⟨"s", "C", "cAbi", "a.ts", "s:C",
    "export const cAbi = [\x7b\"type\":\"function\",\"name\":\"f\"," ++
      "\"inputs\":[\x7b\"name\":\"recipient\",\"type\":\"address\"\x7d]\x7d] as const;\n"⟩

/-- Lexicographic combination of two comparators on a pair (the shape of
the `a || b || c` comparator chains). -/
def prodLexCmp (f : α → α → Ordering) (g : β → β → Ordering) (x y : α × β) : Ordering :=
  match f x.1 y.1 with
  | .eq => g x.2 y.2
  | o => o

/-- The content the dedupe loop compares a module against: the kept entry
for its key in `byKey`, else the first module with its key in `ms`. -/
def firstContentFrom (byKey : List (String × GeneratedModule)) (ms : List GeneratedModule)
    (k : String) : Option String :=
  match byKey.find? (·.1 = k) with
  | some e => some e.2.moduleContent
  | none => (ms.find? (·.dedupeKey = k)).map (·.moduleContent)

/-- Witness data for the dedupe claims: a module of source `a`. -/
def wDedupA : GeneratedModule := ⟨"a", "Alpha", "alphaAbi", "alpha.ts", "a:Alpha", "c1"⟩

/-- Witness data: a byte-identical duplicate of `wDedupA` discovered at
another path. -/
def wDedupA2 : GeneratedModule := ⟨"a", "Alpha", "alphaAbi", "sub/alpha.ts", "a:Alpha", "c1"⟩

/-- Witness data: a module of source `b` with its own key. -/
def wDedupB : GeneratedModule := ⟨"b", "Alpha", "alphaAbi", "b/alpha.ts", "b:Alpha", "c2"⟩

/-- Witness data: a module with `wDedupA`'s key but different content. -/
def wDedupConflict : GeneratedModule :=
  ⟨"a", "Alpha", "alphaAbi", "other/alpha.ts", "a:Alpha", "c3"⟩

/-! ## Lemmas and claim theorems -/

theorem charCmp_swap (a b : Char) : charCmp a b = (charCmp b a).swap := by
  unfold charCmp
  rcases Nat.lt_trichotomy a.val.toNat b.val.toNat with h | h | h
  · rw [Nat.compare_eq_lt.mpr h, Nat.compare_eq_gt.mpr h]; rfl
  · rw [h, Nat.compare_eq_eq.mpr rfl]; rfl
  · rw [Nat.compare_eq_gt.mpr h, Nat.compare_eq_lt.mpr h]; rfl

theorem charCmp_eq_iff (a b : Char) : charCmp a b = .eq ↔ a = b := by
  unfold charCmp
  rw [Nat.compare_eq_eq]
  constructor
  · intro h; exact Char.ext (UInt32.ext h)
  · intro h; rw [h]

theorem listCharCmp_swap (a b : List Char) : listCharCmp a b = (listCharCmp b a).swap := by
  induction a generalizing b with
  | nil => cases b <;> rfl
  | cons x xs ih =>
    cases b with
    | nil => rfl
    | cons y ys =>
      simp only [listCharCmp]
      rw [charCmp_swap y x]
      cases h : charCmp x y <;> simp [Ordering.swap, ih]

theorem listCharCmp_eq_iff (a b : List Char) : listCharCmp a b = .eq ↔ a = b := by
  induction a generalizing b with
  | nil => cases b <;> simp [listCharCmp]
  | cons x xs ih =>
    cases b with
    | nil => simp [listCharCmp]
    | cons y ys =>
      simp only [listCharCmp]
      cases h : charCmp x y with
      | eq => rw [charCmp_eq_iff] at h; simp [h, ih]
      | lt =>
        have : ¬ x = y := fun he => by rw [he, (charCmp_eq_iff y y).mpr rfl] at h; cases h
        simp [this]
      | gt =>
        have : ¬ x = y := fun he => by rw [he, (charCmp_eq_iff y y).mpr rfl] at h; cases h
        simp [this]

theorem charCmp_lt_trans {a b c : Char} (h₁ : charCmp a b = .lt) (h₂ : charCmp b c = .lt) :
    charCmp a c = .lt := by
  unfold charCmp at *
  rw [Nat.compare_eq_lt] at *
  omega

theorem listCharCmp_lt_trans {a b c : List Char} (h₁ : listCharCmp a b = .lt)
    (h₂ : listCharCmp b c = .lt) : listCharCmp a c = .lt := by
  induction a generalizing b c with
  | nil =>
    cases b with
    | nil => exact absurd h₁ (by simp [listCharCmp])
    | cons y ys => cases c with
      | nil => exact absurd h₂ (by simp [listCharCmp])
      | cons z zs => simp [listCharCmp]
  | cons x xs ih =>
    cases b with
    | nil => exact absurd h₁ (by simp [listCharCmp])
    | cons y ys =>
      cases c with
      | nil => exact absurd h₂ (by simp [listCharCmp])
      | cons z zs =>
        simp only [listCharCmp] at h₁ h₂ ⊢
        cases hxy : charCmp x y with
        | gt => simp [hxy] at h₁
        | lt =>
          cases hyz : charCmp y z with
          | gt => simp [hyz] at h₂
          | lt => simp [charCmp_lt_trans hxy hyz]
          | eq =>
            have hyz' : y = z := (charCmp_eq_iff y z).mp hyz
            subst hyz'
            simp [hxy]
        | eq =>
          have hxy' : x = y := (charCmp_eq_iff x y).mp hxy
          subst hxy'
          simp only [hxy] at h₁
          cases hyz : charCmp x z with
          | gt => simp [hyz] at h₂
          | lt => simp [hyz]
          | eq =>
            simp only [hyz] at h₂ ⊢
            exact ih h₁ h₂

theorem strCmp_swap (a b : String) : strCmp a b = (strCmp b a).swap :=
  listCharCmp_swap _ _

theorem strCmp_eq_iff (a b : String) : strCmp a b = .eq ↔ a = b := by
  unfold strCmp
  rw [listCharCmp_eq_iff]
  constructor
  · intro h
    cases a; cases b
    simp only [String.toList] at h
    rw [h]
  · intro h; rw [h]

theorem strCmp_lt_trans {a b c : String} (h₁ : strCmp a b = .lt) (h₂ : strCmp b c = .lt) :
    strCmp a c = .lt := listCharCmp_lt_trans h₁ h₂

theorem strCmp_self (a : String) : strCmp a a = .eq := (strCmp_eq_iff a a).mpr rfl

theorem strCmp_le_trans {a b c : String} (h₁ : strCmp a b ≠ .gt) (h₂ : strCmp b c ≠ .gt) :
    strCmp a c ≠ .gt := by
  cases hab : strCmp a b with
  | gt => exact absurd hab h₁
  | eq => rw [(strCmp_eq_iff a b).mp hab]; exact h₂
  | lt =>
    cases hbc : strCmp b c with
    | gt => exact absurd hbc h₂
    | eq => rw [← (strCmp_eq_iff b c).mp hbc]; rw [hab]; simp
    | lt => rw [strCmp_lt_trans hab hbc]; simp

theorem mem_insertOrd (cmp : α → α → Ordering) (x a : α) (l : List α) :
    a ∈ insertOrd cmp x l ↔ a = x ∨ a ∈ l := by
  induction l with
  | nil => simp [insertOrd]
  | cons y ys ih =>
    simp only [insertOrd]
    split
    · simp [ih]; tauto
    · simp

theorem mem_sortOrd (cmp : α → α → Ordering) (a : α) (l : List α) :
    a ∈ sortOrd cmp l ↔ a ∈ l := by
  induction l with
  | nil => simp [sortOrd]
  | cons x xs ih => simp [sortOrd, mem_insertOrd, ih]

theorem pairwise_insertOrd (cmp : α → α → Ordering)
    (hswap : ∀ a b, cmp a b = (cmp b a).swap)
    (htrans : ∀ {a b c}, cmp a b ≠ .gt → cmp b c ≠ .gt → cmp a c ≠ .gt)
    (x : α) (l : List α) (hl : l.Pairwise (fun a b => cmp a b ≠ .gt)) :
    (insertOrd cmp x l).Pairwise (fun a b => cmp a b ≠ .gt) := by
  induction l with
  | nil => simp [insertOrd]
  | cons y ys ih =>
    rcases List.pairwise_cons.mp hl with ⟨hy, hys⟩
    simp only [insertOrd]
    split
    · rename_i hlt
      refine List.pairwise_cons.mpr ⟨?_, ih hys⟩
      intro b hb
      rcases (mem_insertOrd cmp x b ys).mp hb with rfl | hbys
      · rw [hlt]; simp
      · exact hy b hbys
    · rename_i hnlt
      refine List.pairwise_cons.mpr ⟨?_, hl⟩
      intro b hb
      have hxy : cmp x y ≠ .gt := by
        intro hgt
        rw [hswap x y] at hgt
        cases h : cmp y x <;> rw [h] at hgt <;> simp [Ordering.swap] at hgt
        exact hnlt h
      rcases List.mem_cons.mp hb with rfl | hbys
      · exact hxy
      · exact htrans hxy (hy b hbys)

theorem pairwise_sortOrd (cmp : α → α → Ordering)
    (hswap : ∀ a b, cmp a b = (cmp b a).swap)
    (htrans : ∀ {a b c}, cmp a b ≠ .gt → cmp b c ≠ .gt → cmp a c ≠ .gt)
    (l : List α) : (sortOrd cmp l).Pairwise (fun a b => cmp a b ≠ .gt) := by
  induction l with
  | nil => simp [sortOrd]
  | cons x xs ih => exact pairwise_insertOrd cmp hswap (fun h₁ h₂ => htrans h₁ h₂) x _ ih

/-- Stability of `insertOrd`, phrased through `filter`: inserting an element
whose equivalence class (under `cmp`-equality) is picked out by `p` places
it before every class member already present. -/
theorem filter_insertOrd (cmp : α → α → Ordering) (p : α → Bool)
    (hp : ∀ a b, p a = true → p b = true → cmp a b = .eq)
    (x : α) (l : List α) :
    (insertOrd cmp x l).filter p =
      if p x then x :: l.filter p else l.filter p := by
  induction l with
  | nil => cases hpx : p x <;> simp [insertOrd, List.filter, hpx]
  | cons y ys ih =>
    simp only [insertOrd]
    split
    · rename_i hlt
      by_cases hpx : p x = true
      · have hpy : p y = false := by
          by_contra h
          have := hp y x (by simpa using h) hpx
          rw [this] at hlt; cases hlt
        simp [List.filter, hpy, hpx, ih]
      · have hpx' : p x = false := by simpa using hpx
        cases hpy : p y <;> simp [List.filter, hpy, hpx', ih]
    · cases hpx : p x <;> cases hpy : p y <;> simp [List.filter, hpx, hpy]

theorem filter_sortOrd (cmp : α → α → Ordering) (p : α → Bool)
    (hp : ∀ a b, p a = true → p b = true → cmp a b = .eq) (l : List α) :
    (sortOrd cmp l).filter p = l.filter p := by
  induction l with
  | nil => rfl
  | cons x xs ih =>
    simp only [sortOrd]
    rw [filter_insertOrd cmp p hp]
    cases hpx : p x <;> simp [List.filter, hpx, ih]

/-- **C8.** `splitWords` segments acronym-heavy identifiers as specified
(`"WBERA"` stays one token, `"ERC20Token"` splits to `erc20`/`token`,
`"BGTStaker"` splits to `bgt`/`staker`), and for inputs with no tokens
`toCamelCase` falls back to `"abi"`, `toPascalCase` to `"Contract"`, and
`toKebabCase` to the empty string. -/
theorem splitWords_segmentation_and_fallbacks :
    splitWords "WBERA" = ["wbera"] ∧
    splitWords "ERC20Token" = ["erc20", "token"] ∧
    splitWords "BGTStaker" = ["bgt", "staker"] ∧
    ∀ s : String, splitWords s = [] →
      toCamelCase s = "abi" ∧ toPascalCase s = "Contract" ∧ toKebabCase s = "" := by
  refine ⟨rfl, rfl, rfl, ?_⟩
  intro s h
  refine ⟨?_, ?_, ?_⟩
  · unfold toCamelCase; rw [h]
  · unfold toPascalCase; rw [h]
  · unfold toKebabCase; rw [h]; rfl

/-- Witness for C8 at the concrete token-free identifier `"_-"`. -/
theorem splitWords_segmentation_and_fallbacks_witness :
    splitWords "_-" = [] ∧ toCamelCase "_-" = "abi" ∧
      toPascalCase "_-" = "Contract" ∧ toKebabCase "_-" = "" := by
  have h := splitWords_segmentation_and_fallbacks.2.2.2 "_-" rfl
  exact ⟨rfl, h.1, h.2.1, h.2.2⟩

/-- **C7.** `normalizeDirs`: scalar inputs wrap to one-element lists and
unset inputs default to `["src"]` / `["out"]`; an empty source list or two
multi-element lists of different lengths are errors; a single output
directory is broadcast across a longer source list; on success the two
returned lists have equal length and the source list is returned as
normalized, so position `i` pairs `srcDirs[i]` with `outDirs[i]`. -/
theorem normalizeDirs_spec :
    (∀ s o : String, normalizeDirs (.one s) (.one o) = .ok ⟨[s], [o]⟩) ∧
    (normalizeDirs .undef .undef = .ok ⟨["src"], ["out"]⟩) ∧
    (∀ outDir, ∃ e, normalizeDirs (.many []) outDir = .error e) ∧
    (∀ ls lo, 2 ≤ ls.length → 2 ≤ lo.length → ls.length ≠ lo.length →
      ∃ e, normalizeDirs (.many ls) (.many lo) = .error e) ∧
    (∀ ls o, ls ≠ [] → normalizeDirs (.many ls) (.one o) =
      .ok ⟨ls, ls.map (fun _ => o)⟩) ∧
    (∀ ls lo, ls ≠ [] → lo.length = 1 → normalizeDirs (.many ls) (.many lo) =
      .ok ⟨ls, ls.map (fun _ => lo.headD "")⟩) := by
  refine ⟨fun s o => rfl, rfl, ?_, ?_, ?_, ?_⟩
  · intro outDir
    exact ⟨_, rfl⟩
  · intro ls lo h2s h2o hne
    refine ⟨"When both srcDir and outDir are arrays they must have the same length (srcDir: " ++
      toString ls.length ++ ", outDir: " ++ toString lo.length ++ ")", ?_⟩
    unfold normalizeDirs wrapDirs
    have hls : ¬ ls.length = 0 := by omega
    have hg : (lo.length > 1 && lo.length != ls.length) = true := by
      simp only [Bool.and_eq_true, decide_eq_true_eq, bne_iff_ne]
      omega
    simp [hls, hg]
  · intro ls o hne
    unfold normalizeDirs wrapDirs
    have hls : ¬ ls.length = 0 := by
      simpa [List.length_eq_zero] using hne
    simp [hls]
  · intro ls lo hne h1
    unfold normalizeDirs wrapDirs
    have hls : ¬ ls.length = 0 := by
      simpa [List.length_eq_zero] using hne
    have hg : (lo.length > 1 && lo.length != ls.length) = false := by
      simp only [Bool.and_eq_false_iff]
      left
      simp [h1]
    simp [hls, hg, h1]

/-- Witness for C7 at concrete inputs: broadcast of a single output
directory over two source directories, and an error for mismatched
multi-element lists. -/
theorem normalizeDirs_spec_witness :
    normalizeDirs (.many ["a", "b"]) (.one "x") = .ok ⟨["a", "b"], ["x", "x"]⟩ ∧
    (∃ e, normalizeDirs (.many ["a", "b"]) (.many ["x", "y", "z"]) = .error e) := by
  constructor
  · exact normalizeDirs_spec.2.2.2.2.1 ["a", "b"] "x" (by decide)
  · exact normalizeDirs_spec.2.2.2.1 ["a", "b"] ["x", "y", "z"] (by decide) (by decide)
      (by decide)

theorem parseSemVer_ne_empty {v : String} {x : SemVer} (h : parseSemVer v = some x) :
    v ≠ "" := by
  intro he
  subst he
  rw [show parseSemVer "" = none from rfl] at h
  exact Option.noConfusion h

/-- **C4.** `resolveBaseVersion`: for the primary channel `"latest"` it
returns exactly the looked-up latest version; otherwise, when both the
requested tag's version and the latest version exist (as valid semantic
versions), it returns whichever is not older by semantic-version
precedence with ties resolving to the latest channel; when exactly one of
the two exists it returns that one, and when neither exists it returns
`null`. -/
theorem resolveBaseVersion_channel_resolution
    (pkg tag : String) (lookup : String → String → Option String) :
    (tag = "latest" → resolveBaseVersion pkg tag lookup = .ok (lookup pkg "latest")) ∧
    (tag ≠ "latest" → lookup pkg tag = none → lookup pkg "latest" = none →
      resolveBaseVersion pkg tag lookup = .ok none) ∧
    (∀ v x, tag ≠ "latest" → lookup pkg tag = some v → parseSemVer v = some x →
      lookup pkg "latest" = none → resolveBaseVersion pkg tag lookup = .ok (some v)) ∧
    (∀ v x, tag ≠ "latest" → lookup pkg tag = none → lookup pkg "latest" = some v →
      parseSemVer v = some x → resolveBaseVersion pkg tag lookup = .ok (some v)) ∧
    (∀ tv lv x y, tag ≠ "latest" → lookup pkg tag = some tv → lookup pkg "latest" = some lv →
      parseSemVer tv = some x → parseSemVer lv = some y →
      ((cmpSemVer y x ≠ .lt → resolveBaseVersion pkg tag lookup = .ok (some lv)) ∧
        (cmpSemVer y x = .lt → resolveBaseVersion pkg tag lookup = .ok (some tv)))) := by
  refine ⟨?_, ?_, ?_, ?_, ?_⟩
  · intro h
    simp [resolveBaseVersion, h]
  · intro htag htv hlv
    simp [resolveBaseVersion, htag, htv, hlv, jsTruthyStr]
  · intro v x htag htv hpx hlv
    simp [resolveBaseVersion, htag, htv, hlv, jsTruthyStr]
  · intro v x htag htv hlv hpx
    simp [resolveBaseVersion, htag, htv, hlv, jsTruthyStr]
  · intro tv lv x y htag htv hlv hpx hpy
    have htv' : tv ≠ "" := parseSemVer_ne_empty hpx
    have hlv' : lv ≠ "" := parseSemVer_ne_empty hpy
    constructor
    · intro hcmp
      simp [resolveBaseVersion, htag, htv, hlv, jsTruthyStr, htv', hlv', semverGte,
        hpx, hpy, hcmp]
    · intro hcmp
      simp [resolveBaseVersion, htag, htv, hlv, jsTruthyStr, htv', hlv', semverGte,
        hpx, hpy, hcmp]

/-- Witness for C4 at a concrete stale-tag scenario: `beta` points to
`1.1.0-beta.1` while `latest` points to `1.0.0`; the beta version is newer
and is returned. -/
theorem resolveBaseVersion_channel_resolution_witness :
    resolveBaseVersion "@berachain/abis" "beta"
      (fun _ t => if t = "latest" then some "1.0.0" else some "1.1.0-beta.1") =
      .ok (some "1.1.0-beta.1") := by
  exact ((resolveBaseVersion_channel_resolution "@berachain/abis" "beta"
      (fun _ t => if t = "latest" then some "1.0.0" else some "1.1.0-beta.1")).2.2.2.2
    "1.1.0-beta.1" "1.0.0" ⟨1, 1, 0, ["beta", "1"]⟩ ⟨1, 0, 0, []⟩
    (by decide) rfl rfl (by decide) (by decide)).2 (by decide)

/-! ### JavaScript object-assignment lemmas -/

theorem find?_cons_ite (p : α → Bool) (a : α) (l : List α) :
    List.find? p (a :: l) = if p a then some a else List.find? p l := by
  rw [List.find?_cons]
  cases p a <;> simp

theorem map_fst_jsAssign (acc : List (String × β)) (k0 : String) (v : β) :
    (jsAssign acc k0 v).map (·.1) =
      if acc.any (·.1 = k0) then acc.map (·.1) else acc.map (·.1) ++ [k0] := by
  unfold jsAssign
  split
  · rw [List.map_map]
    apply List.map_congr_left
    intro e _
    by_cases h1 : e.1 = k0 <;> simp [h1]
  · simp

theorem find?_val_map_replace (k0 k : String) (v : β) (acc : List (String × β)) :
    ((acc.map (fun e => if e.1 = k0 then (k0, v) else e)).find? (fun e => e.1 = k)).map (·.2) =
      if k = k0 then (if acc.any (·.1 = k0) then some v else none)
      else (acc.find? (fun e => e.1 = k)).map (·.2) := by
  induction acc with
  | nil => by_cases hk : k = k0 <;> simp [hk]
  | cons e es ih =>
    simp only [List.map_cons, List.any_cons]
    by_cases he : e.1 = k0
    · by_cases hk : k = k0
      · subst hk
        simp [find?_cons_ite, he]
      · have hk' : ¬ k0 = k := fun h => hk h.symm
        simp [find?_cons_ite, he, hk, hk', ih, -List.find?_map]
    · by_cases hek : e.1 = k
      · by_cases hk : k = k0
        · exact absurd (hek.trans hk) he
        · simp [find?_cons_ite, he, hek, hk]
      · by_cases hk : k = k0
        · subst hk
          rw [if_neg he, find?_cons_ite, if_neg (by simp [hek]), ih, if_pos rfl,
            if_pos rfl]
          simp only [decide_eq_false he, Bool.false_or]
        · simp [find?_cons_ite, he, hek, hk, ih, -List.find?_map]

theorem find?_val_jsAssign (acc : List (String × β)) (k0 k : String) (v : β) :
    ((jsAssign acc k0 v).find? (fun e => e.1 = k)).map (·.2) =
      if k = k0 then some v else (acc.find? (fun e => e.1 = k)).map (·.2) := by
  unfold jsAssign
  split
  · rename_i hany
    rw [find?_val_map_replace, hany]
    by_cases hk : k = k0 <;> simp [hk]
  · rename_i hany
    rw [Bool.not_eq_true] at hany
    rw [List.find?_append]
    cases hfind : acc.find? (fun e => e.1 = k) with
    | some e =>
      have hek : e.1 = k := by
        have := List.find?_some hfind
        simpa using this
      have hk : ¬ (k = k0) := by
        intro h
        have hmem := List.mem_of_find?_eq_some hfind
        have : acc.any (·.1 = k0) = true := by
          apply List.any_eq_true.mpr
          exact ⟨e, hmem, by simp [hek, h]⟩
        rw [this] at hany; cases hany
      simp [Option.or, hk]
    | none =>
      by_cases hk : k = k0
      · subst hk
        simp [Option.or, List.find?_cons]
      · have : ¬ (k0 = k) := fun h => hk h.symm
        simp [Option.or, List.find?_cons, this, hk]

theorem lookup_jsFromEntries (es : List (String × β)) (k : String) :
    ((jsFromEntries es).find? (fun e => e.1 = k)).map (·.2) = lastVal es k := by
  have haux : ∀ (es : List (String × β)) (acc : List (String × β)),
      (((es.foldl (fun acc e => jsAssign acc e.1 e.2) acc).find? (fun e => e.1 = k)).map (·.2)) =
        es.foldl (fun a e => if e.1 = k then some e.2 else a)
          ((acc.find? (fun e => e.1 = k)).map (·.2)) := by
    intro es
    induction es with
    | nil => intro acc; rfl
    | cons e es ih =>
      intro acc
      simp only [List.foldl_cons]
      rw [ih]
      congr 1
      rw [find?_val_jsAssign]
      by_cases hk : e.1 = k
      · rw [if_pos (hk.symm), if_pos (by simpa using hk)]
      · rw [if_neg (fun h => hk h.symm), if_neg (by simpa using hk)]
  have h := haux es []
  simpa [jsFromEntries, lastVal] using h

theorem mem_keys_jsFromEntries (es : List (String × β)) (k : String) :
    k ∈ (jsFromEntries es).map (·.1) ↔ k ∈ es.map (·.1) := by
  have haux : ∀ (es : List (String × β)) (acc : List (String × β)),
      (k ∈ ((es.foldl (fun acc e => jsAssign acc e.1 e.2) acc).map (·.1)) ↔
        k ∈ acc.map (·.1) ∨ k ∈ es.map (·.1)) := by
    intro es
    induction es with
    | nil => intro acc; simp
    | cons e es ih =>
      intro acc
      simp only [List.foldl_cons]
      rw [ih]
      rw [map_fst_jsAssign]
      by_cases hany : acc.any (·.1 = e.1) = true
      · rw [if_pos hany]
        have hmem : e.1 ∈ acc.map (·.1) := by
          rcases List.any_eq_true.mp hany with ⟨x, hx, hx1⟩
          exact List.mem_map.mpr ⟨x, hx, of_decide_eq_true hx1⟩
        constructor
        · rintro (h | h)
          · exact Or.inl h
          · simp only [List.map_cons, List.mem_cons]
            exact Or.inr (Or.inr h)
        · rintro (h | h)
          · exact Or.inl h
          · rcases List.mem_cons.mp h with rfl | h
            · exact Or.inl hmem
            · exact Or.inr h
      · rw [Bool.not_eq_true] at hany
        rw [if_neg (by simp [hany])]
        simp only [List.mem_append, List.mem_singleton, List.map_cons, List.mem_cons]
        tauto
  have h := haux es []
  simpa [jsFromEntries] using h

theorem nodup_keys_jsFromEntries (es : List (String × β)) :
    ((jsFromEntries es).map (·.1)).Nodup := by
  have haux : ∀ (es : List (String × β)) (acc : List (String × β)),
      (acc.map (·.1)).Nodup →
        ((es.foldl (fun acc e => jsAssign acc e.1 e.2) acc).map (·.1)).Nodup := by
    intro es
    induction es with
    | nil => intro acc h; exact h
    | cons e es ih =>
      intro acc h
      simp only [List.foldl_cons]
      apply ih
      rw [map_fst_jsAssign]
      by_cases hany : acc.any (·.1 = e.1) = true
      · rw [if_pos hany]; exact h
      · rw [Bool.not_eq_true] at hany
        rw [if_neg (by simp [hany])]
        have hnm : e.1 ∉ acc.map (·.1) := by
          intro hmem
          rcases List.mem_map.mp hmem with ⟨x, hx, hx1⟩
          have h2 : acc.any (·.1 = e.1) = true :=
            List.any_eq_true.mpr ⟨x, hx, decide_eq_true hx1⟩
          rw [h2] at hany; cases hany
        simp [List.nodup_append, h, hnm]
  exact haux es [] (by simp)

theorem lastVal_filter (es : List (String × β)) (k : String) :
    lastVal es k = lastVal (es.filter (fun e => e.1 = k)) k := by
  have haux : ∀ (es : List (String × β)) (init : Option β),
      es.foldl (fun a e => if e.1 = k then some e.2 else a) init =
        (es.filter (fun e => e.1 = k)).foldl (fun a e => if e.1 = k then some e.2 else a) init := by
    intro es
    induction es with
    | nil => intro init; rfl
    | cons e es ih =>
      intro init
      by_cases he : e.1 = k
      · rw [List.filter_cons_of_pos (by simpa using he)]
        simp only [List.foldl_cons]
        exact ih _
      · rw [List.filter_cons_of_neg (by simpa using he)]
        simp only [List.foldl_cons, if_neg he]
        exact ih _
  exact haux es none

theorem lastVal_map_reverse_find (ms : List α) (G : α → String × β) (k : String) :
    lastVal (ms.map G) k =
      (ms.reverse.find? (fun m => (G m).1 = k)).map (fun m => (G m).2) := by
  induction ms using List.reverseRecOn with
  | nil => rfl
  | append_singleton ms m ih =>
    rw [List.map_append, List.reverse_append]
    unfold lastVal
    rw [List.foldl_append]
    simp only [List.map_cons, List.map_nil, List.foldl_cons, List.foldl_nil,
      List.reverse_singleton, List.singleton_append]
    by_cases hm : (G m).1 = k
    · rw [if_pos hm]
      simp [find?_cons_ite, hm]
    · rw [if_neg hm]
      simp only [find?_cons_ite]
      rw [if_neg (by simp [hm])]
      exact ih

theorem buildManifest_entries_map (ms : List GeneratedModule)
    (hparse : ∀ m ∈ ms, (parseAbiFromModuleContent m.moduleContent).isSome = true) :
    (ms.filterMap (fun mod =>
      match parseAbiFromModuleContent mod.moduleContent with
      | none => none
      | some abi =>
        some (stripTs mod.moduleRelPath,
          sortOrd strCmp (abi.filterMap formatAbiItemSignature)))) =
      ms.map moduleManifestEntry := by
  induction ms with
  | nil => rfl
  | cons m ms ih =>
    have hm := hparse m (List.mem_cons_self m ms)
    rcases Option.isSome_iff_exists.mp hm with ⟨abi, habi⟩
    simp only [List.filterMap_cons, List.map_cons, habi]
    rw [ih (fun x hx => hparse x (List.mem_cons_of_mem m hx))]
    congr 1
    unfold moduleManifestEntry
    rw [habi]
    rfl

/-- **C10.** When two or more modules map to the same manifest key (their
`moduleRelPath` values agree after stripping `.ts`) and their contents all
parse, `buildManifest` produces exactly one entry for that key, and the
entry holds the signatures of whichever of those modules appears last in
input order (`find?` over the reversed input picks that module); no error
and no warning exist — `buildManifest` is total. -/
theorem buildManifest_duplicate_keys_last_wins (ms : List GeneratedModule) (k : String)
    (hparse : ∀ m ∈ ms, (parseAbiFromModuleContent m.moduleContent).isSome = true)
    (hdup : 2 ≤ (ms.filter (fun m => stripTs m.moduleRelPath = k)).length) :
    ((buildManifest ms).map (·.1)).count k = 1 ∧
    (∀ m, ms.reverse.find? (fun m' => stripTs m'.moduleRelPath = k) = some m →
      ((buildManifest ms).find? (fun e => e.1 = k)).map (·.2) =
        some (moduleManifestEntry m).2) := by
  have hent : buildManifest ms =
      jsFromEntries (sortOrd (fun a b => strCmp a.1 b.1) (ms.map moduleManifestEntry)) := by
    unfold buildManifest
    rw [buildManifest_entries_map ms hparse]
  have hp : ∀ a b : String × List String,
      (fun e => decide (e.1 = k)) a = true → (fun e => decide (e.1 = k)) b = true →
        (fun a b => strCmp a.1 b.1) a b = .eq := by
    intro a b ha hb
    have ha' : a.1 = k := of_decide_eq_true ha
    have hb' : b.1 = k := of_decide_eq_true hb
    simp only [ha', hb', strCmp_self]
  constructor
  · rw [hent]
    have hnd := nodup_keys_jsFromEntries
      (sortOrd (fun a b => strCmp a.1 b.1) (ms.map moduleManifestEntry))
    have hx : ∃ m ∈ ms, stripTs m.moduleRelPath = k := by
      have hlen : 0 < (ms.filter (fun m => stripTs m.moduleRelPath = k)).length := by omega
      rcases List.exists_mem_of_length_pos hlen with ⟨m, hm⟩
      have := List.mem_filter.mp hm
      exact ⟨m, this.1, of_decide_eq_true this.2⟩
    rcases hx with ⟨m, hm, hkey⟩
    have hmem : k ∈ (jsFromEntries
        (sortOrd (fun a b => strCmp a.1 b.1) (ms.map moduleManifestEntry))).map (·.1) := by
      rw [mem_keys_jsFromEntries]
      apply List.mem_map.mpr
      refine ⟨moduleManifestEntry m, ?_, hkey⟩
      rw [mem_sortOrd]
      exact List.mem_map_of_mem moduleManifestEntry hm
    exact List.count_eq_one_of_mem hnd hmem
  · intro m hm
    rw [hent, lookup_jsFromEntries, lastVal_filter,
      filter_sortOrd (fun (a b : String × List String) => strCmp a.1 b.1)
        (fun (e : String × List String) => e.1 = k) hp,
      ← lastVal_filter, lastVal_map_reverse_find ms moduleManifestEntry k]
    have hpred : (fun m' => decide ((moduleManifestEntry m').1 = k)) =
        (fun m' => decide (stripTs m'.moduleRelPath = k)) := rfl
    rw [hpred, hm]
    rfl

/-- Witness for C10: two parseable modules both at `a.ts`; the manifest has
exactly one `"a"` entry holding the second module's signatures. -/
theorem buildManifest_duplicate_keys_last_wins_witness :
    ((buildManifest [wModEmpty, wModFallback]).map (·.1)).count "a" = 1 ∧
    ((buildManifest [wModEmpty, wModFallback]).find? (fun e => e.1 = "a")).map (·.2) =
      some ["fallback()"] := by
  have h := buildManifest_duplicate_keys_last_wins [wModEmpty, wModFallback] "a"
    (by decide) (by decide)
  refine ⟨h.1, ?_⟩
  have h2 := h.2 wModFallback (by decide)
  rw [h2]
  rfl

theorem parseAbiJsonItems_none_of_no_bracket {content : String}
    (h : indexOfChar '[' content.toList = none) : parseAbiJsonItems content = none := by
  unfold parseAbiJsonItems
  rw [h]

theorem parseAbiJsonItems_none_of_no_close {content : String}
    (h : lastIndexOfSub ("] as const;".toList) content.toList = none) :
    parseAbiJsonItems content = none := by
  unfold parseAbiJsonItems
  rw [h]
  rcases indexOfChar '[' content.toList with _ | s <;> rfl

theorem parseAbi_none_of_claim_condition {content : String}
    (h : indexOfChar '[' content.toList = none ∨
      lastIndexOfSub ("] as const;".toList) content.toList = none ∨
      parseAbiFromModuleContent content = none) :
    parseAbiFromModuleContent content = none := by
  rcases h with h | h | h
  · unfold parseAbiFromModuleContent
    rw [parseAbiJsonItems_none_of_no_bracket h]
    rfl
  · unfold parseAbiFromModuleContent
    rw [parseAbiJsonItems_none_of_no_close h]
    rfl
  · exact h

theorem filterMap_filter_ne [DecidableEq α] (F : α → Option β) (m : α) (hFm : F m = none)
    (ms : List α) : ms.filterMap F = (ms.filter (· ≠ m)).filterMap F := by
  induction ms with
  | nil => rfl
  | cons x ms ih =>
    by_cases hx : x = m
    · subst hx
      rw [List.filter_cons_of_neg (by simp)]
      simp only [List.filterMap_cons, hFm]
      exact ih
    · rw [List.filter_cons_of_pos (by simpa using hx)]
      simp only [List.filterMap_cons]
      rw [ih]

/-- **C9 counterexample.** The claim "buildManifest silently omits that
module's export path" fails when another module maps to the same key: with
an unparseable module at `a.ts` alongside a parseable one at `a.ts`, the
path `"a"` is present in the manifest. -/
theorem buildManifest_unparseable_path_present :
    indexOfChar '[' wModBad.moduleContent.toList = none ∧
    parseAbiFromModuleContent wModBad.moduleContent = none ∧
    ((buildManifest [wModBad, wModEmpty]).map (·.1)).contains "a" = true := by
  exact ⟨rfl, rfl, rfl⟩

/-- **C9 (amended).** A module whose content has no `[`, or no
`] as const;`, or whose extracted slice does not parse, contributes
nothing: `buildManifest` returns exactly the manifest of the list without
that module (so no error is raised and no warning is recorded and every
other module is still processed), and the module's export path is absent
whenever no other module maps to the same key.  (`buildManifest` is a
total function, so "no error, no warning" is inherent in its type.) -/
theorem buildManifest_skips_unparseable (ms : List GeneratedModule) (m : GeneratedModule)
    (hm : m ∈ ms)
    (hbad : indexOfChar '[' m.moduleContent.toList = none ∨
      lastIndexOfSub ("] as const;".toList) m.moduleContent.toList = none ∨
      parseAbiFromModuleContent m.moduleContent = none) :
    buildManifest ms = buildManifest (ms.filter (· ≠ m)) ∧
    ((∀ m' ∈ ms, ¬ m' = m → ¬ stripTs m'.moduleRelPath = stripTs m.moduleRelPath) →
      (buildManifest ms).find? (fun e => e.1 = stripTs m.moduleRelPath) = none) := by
  have hnone : parseAbiFromModuleContent m.moduleContent = none :=
    parseAbi_none_of_claim_condition hbad
  have hFm : (match parseAbiFromModuleContent m.moduleContent with
      | none => none
      | some abi =>
        some (stripTs m.moduleRelPath,
          sortOrd strCmp (abi.filterMap formatAbiItemSignature))) =
      (none : Option (String × List String)) := by
    rw [hnone]
  constructor
  · unfold buildManifest
    rw [filterMap_filter_ne _ m hFm ms]
  · intro huniq
    apply List.find?_eq_none.mpr
    intro e he
    have hkey : e.1 ∈ (buildManifest ms).map (·.1) := List.mem_map_of_mem _ he
    unfold buildManifest at hkey
    rw [mem_keys_jsFromEntries] at hkey
    rcases List.mem_map.mp hkey with ⟨x, hx, hx1⟩
    rw [mem_sortOrd] at hx
    rcases List.mem_filterMap.mp hx with ⟨m', hm', hFm'⟩
    have hm'm : ¬ m' = m := by
      intro hEq
      rw [hEq, hFm] at hFm'
      exact Option.noConfusion hFm'
    have hx1' : x.1 = stripTs m'.moduleRelPath := by
      rcases hp : parseAbiFromModuleContent m'.moduleContent with _ | abi
      · rw [hp] at hFm'
        exact absurd hFm' (by simp)
      · rw [hp] at hFm'
        simp only [Option.some.injEq] at hFm'
        rw [← hFm']
    have := huniq m' hm' hm'm
    simp only [decide_eq_true_eq]
    intro heq
    exact this (by rw [← hx1', hx1, heq])

/-- Witness for the amended C9 at concrete modules: an unparseable module
at `a.ts` next to a parseable one at `b.ts`. -/
theorem buildManifest_skips_unparseable_witness :
    buildManifest [wModBad, wModOther] =
      buildManifest ([wModBad, wModOther].filter (· ≠ wModBad)) ∧
    (buildManifest [wModBad, wModOther]).find?
      (fun e => e.1 = stripTs wModBad.moduleRelPath) = none := by
  have h := buildManifest_skips_unparseable [wModBad, wModOther] wModBad
    (by decide) (Or.inl rfl)
  exact ⟨h.1, h.2 (by decide)⟩

/-! ### Parameter-name erasure lemmas (C1) -/

theorem getField_stripParamNameFields (fields : List (String × Json)) (k : String)
    (hk1 : ¬ k = "name") (hk2 : ¬ k = "components") :
    getField (stripParamNameFields fields) k = getField fields k := by
  induction fields with
  | nil => rfl
  | cons e fs ih =>
    obtain ⟨ek, ev⟩ := e
    by_cases h1 : ek = "name"
    · rw [show stripParamNameFields ((ek, ev) :: fs) = stripParamNameFields fs from by
        simp [stripParamNameFields, h1]]
      rw [ih]
      unfold getField
      rw [find?_cons_ite, if_neg (by simp [h1]; exact fun h => hk1 h.symm)]
    · by_cases h2 : ek = "components"
      · rw [show stripParamNameFields ((ek, ev) :: fs) =
            (ek, stripParamArr ev) :: stripParamNameFields fs from by
          simp [stripParamNameFields, h1, h2]]
        unfold getField
        rw [find?_cons_ite, find?_cons_ite,
          if_neg (by simp [h2]; exact fun h => hk2 h.symm),
          if_neg (by simp [h2]; exact fun h => hk2 h.symm)]
        exact ih
      · rw [show stripParamNameFields ((ek, ev) :: fs) =
            (ek, ev) :: stripParamNameFields fs from by
          simp [stripParamNameFields, h1, h2]]
        unfold getField
        rw [find?_cons_ite, find?_cons_ite]
        by_cases hek : ek = k
        · rw [if_pos (by simp [hek]), if_pos (by simp [hek])]
        · rw [if_neg (by simp [hek]), if_neg (by simp [hek])]
          exact ih

theorem stripPNF_name {k : String} (v : Json) (fs : List (String × Json)) (h : k = "name") :
    stripParamNameFields ((k, v) :: fs) = stripParamNameFields fs := by
  rw [stripParamNameFields.eq_def]
  simp [h]

theorem stripPNF_comp {k : String} (v : Json) (fs : List (String × Json))
    (h1 : ¬ k = "name") (h2 : k = "components") :
    stripParamNameFields ((k, v) :: fs) = (k, stripParamArr v) :: stripParamNameFields fs := by
  rw [stripParamNameFields.eq_def]
  simp [h1, h2]

theorem stripPNF_other {k : String} (v : Json) (fs : List (String × Json))
    (h1 : ¬ k = "name") (h2 : ¬ k = "components") :
    stripParamNameFields ((k, v) :: fs) = (k, v) :: stripParamNameFields fs := by
  rw [stripParamNameFields.eq_def]
  simp [h1, h2]

theorem decodeCF_cons_other {k : String} (v : Json) (fs : List (String × Json))
    (h : ¬ k = "components") :
    decodeComponentsField ((k, v) :: fs) = decodeComponentsField fs := by
  rw [decodeComponentsField.eq_def]
  simp [h]

theorem decodeCF_cons_comp {k : String} (v : Json) (fs : List (String × Json))
    (h : k = "components") :
    decodeComponentsField ((k, v) :: fs) =
      (match v with
        | .arr items => decodeParamList items
        | _ => []) := by
  rw [decodeComponentsField.eq_def]
  simp [h]

mutual

theorem decodeParam_strip : ∀ j : Json, decodeParam (stripParamName j) = decodeParam j
  | .null => rfl
  | .bool _ => rfl
  | .num _ => rfl
  | .str _ => rfl
  | .arr _ => rfl
  | .obj fields => by
    show decodeParam (.obj (stripParamNameFields fields)) = decodeParam (.obj fields)
    simp only [decodeParam]
    rw [decodeComponents_strip fields]
    unfold decodeTypeField
    rw [getField_stripParamNameFields fields "type" (by decide) (by decide),
      getField_stripParamNameFields fields "indexed" (by decide) (by decide)]
termination_by j => sizeOf j

theorem decodeComponents_strip : ∀ fields : List (String × Json),
    decodeComponentsField (stripParamNameFields fields) = decodeComponentsField fields
  | [] => rfl
  | (k, v) :: fs => by
    by_cases h1 : k = "name"
    · rw [stripPNF_name v fs h1, decodeCF_cons_other v fs (by rw [h1]; decide)]
      exact decodeComponents_strip fs
    · by_cases h2 : k = "components"
      · rw [stripPNF_comp v fs h1 h2, decodeCF_cons_comp (stripParamArr v) _ h2,
          decodeCF_cons_comp v fs h2]
        exact decodeParamArr_strip v
      · rw [stripPNF_other v fs h1 h2, decodeCF_cons_other v _ h2,
          decodeCF_cons_other v fs h2]
        exact decodeComponents_strip fs
termination_by fields => sizeOf fields

theorem decodeParamArr_strip : ∀ v : Json,
    (match stripParamArr v with
      | .arr items => decodeParamList items
      | _ => ([] : List AbiParam)) =
    (match v with
      | .arr items => decodeParamList items
      | _ => [])
  | .null => rfl
  | .bool _ => rfl
  | .num _ => rfl
  | .str _ => rfl
  | .obj _ => rfl
  | .arr items => by
    show decodeParamList (stripParamList items) = decodeParamList items
    exact decodeParamList_strip items
termination_by v => sizeOf v

theorem decodeParamList_strip : ∀ js : List Json,
    decodeParamList (stripParamList js) = decodeParamList js
  | [] => rfl
  | j :: js => by
    show decodeParam (stripParamName j) :: decodeParamList (stripParamList js) =
      decodeParam j :: decodeParamList js
    rw [decodeParam_strip j, decodeParamList_strip js]
termination_by js => sizeOf js

end

theorem getField_map_io (fields : List (String × Json)) (k : String) :
    getField (fields.map (fun e =>
        if e.1 = "inputs" ∨ e.1 = "outputs" then (e.1, stripParamArr e.2) else e)) k =
      (getField fields k).map
        (fun v => if k = "inputs" ∨ k = "outputs" then stripParamArr v else v) := by
  induction fields with
  | nil => rfl
  | cons e fs ih =>
    obtain ⟨ek, ev⟩ := e
    unfold getField
    by_cases hio : ek = "inputs" ∨ ek = "outputs"
    · rw [List.map_cons, if_pos hio, find?_cons_ite, find?_cons_ite]
      by_cases hek : ek = k
      · rw [if_pos (by simp [hek]), if_pos (by simp [hek])]
        subst hek
        simp [hio]
      · rw [if_neg (by simp [hek]), if_neg (by simp [hek])]
        exact ih
    · rw [List.map_cons, if_neg hio, find?_cons_ite, find?_cons_ite]
      by_cases hek : ek = k
      · rw [if_pos (by simp [hek]), if_pos (by simp [hek])]
        subst hek
        simp [hio]
      · rw [if_neg (by simp [hek]), if_neg (by simp [hek])]
        exact ih

theorem decodeItem_strip (j : Json) : decodeItem (stripItemParamNames j) = decodeItem j := by
  cases j with
  | obj fields =>
    show decodeItem (.obj (fields.map _)) = decodeItem (.obj fields)
    have hin : (("inputs" : String) = "inputs" ∨ ("inputs" : String) = "outputs") := Or.inl rfl
    have hout : (("outputs" : String) = "inputs" ∨ ("outputs" : String) = "outputs") :=
      Or.inr rfl
    have htype : ¬ (("type" : String) = "inputs" ∨ ("type" : String) = "outputs") := by decide
    have hname : ¬ (("name" : String) = "inputs" ∨ ("name" : String) = "outputs") := by decide
    have hmut : ¬ (("stateMutability" : String) = "inputs" ∨
      ("stateMutability" : String) = "outputs") := by decide
    simp only [decodeItem, decodeTypeField, getField_map_io, if_neg htype, if_neg hname,
      if_neg hmut, if_pos hin, if_pos hout, Option.map_id']
    have harm : ∀ v : Json,
        (match some (stripParamArr v) with
          | some (Json.arr items) => decodeParamList items
          | _ => ([] : List AbiParam)) =
        (match some v with
          | some (Json.arr items) => decodeParamList items
          | _ => []) := by
      intro v
      cases v <;> simp [stripParamArr, decodeParamList_strip]
    rcases hgi : getField fields "inputs" with _ | vi <;>
      rcases hgo : getField fields "outputs" with _ | vo <;>
        simp [harm]
  | null => rfl
  | bool b => rfl
  | num l => rfl
  | str s => rfl
  | arr l => rfl

/-- **C1.** Manifest signatures contain only parameter types, never
parameter names: the decoded view of a parameter (and hence every
formatted signature, for functions, events, errors and constructors
alike) is invariant under erasing every parameter `"name"` field, and two
module lists whose parsed interface arrays agree after that erasure — in
particular, arrays differing only in a parameter's name — yield identical
manifests. -/
theorem manifest_signatures_independent_of_param_names :
    (∀ j : Json, decodeParam (stripParamName j) = decodeParam j) ∧
    (∀ j : Json, decodeItem (stripItemParamNames j) = decodeItem j) ∧
    (∀ ms₁ ms₂ : List GeneratedModule,
      List.Forall₂ (fun m₁ m₂ =>
        stripTs m₁.moduleRelPath = stripTs m₂.moduleRelPath ∧
        (parseAbiJsonItems m₁.moduleContent).map (fun items => items.map stripItemParamNames) =
          (parseAbiJsonItems m₂.moduleContent).map (fun items => items.map stripItemParamNames))
        ms₁ ms₂ →
      buildManifest ms₁ = buildManifest ms₂) := by
  refine ⟨decodeParam_strip, decodeItem_strip, ?_⟩
  intro ms₁ ms₂ hrel
  unfold buildManifest
  congr 1
  congr 1
  induction hrel with
  | nil => rfl
  | cons ha hl ih =>
    rename_i a₁ a₂ l₁ l₂
    obtain ⟨hpath, hparse⟩ := ha
    simp only [List.filterMap_cons]
    have hFa : (match parseAbiFromModuleContent a₁.moduleContent with
        | none => none
        | some abi =>
          some (stripTs a₁.moduleRelPath,
            sortOrd strCmp (abi.filterMap formatAbiItemSignature))) =
        (match parseAbiFromModuleContent a₂.moduleContent with
        | none => none
        | some abi =>
          some (stripTs a₂.moduleRelPath,
            sortOrd strCmp (abi.filterMap formatAbiItemSignature))) := by
      unfold parseAbiFromModuleContent
      rcases h1 : parseAbiJsonItems a₁.moduleContent with _ | items₁ <;>
        rcases h2 : parseAbiJsonItems a₂.moduleContent with _ | items₂
      · rfl
      · rw [h1, h2] at hparse
        exact absurd hparse (by simp)
      · rw [h1, h2] at hparse
        exact absurd hparse (by simp)
      · rw [h1, h2] at hparse
        simp only [Option.map_some', Option.some.injEq] at hparse
        have hdec : items₁.map decodeItem = items₂.map decodeItem := by
          have e1 : items₁.map decodeItem = (items₁.map stripItemParamNames).map decodeItem := by
            rw [List.map_map]
            apply List.map_congr_left
            intro x _
            exact (decodeItem_strip x).symm
          have e2 : items₂.map decodeItem = (items₂.map stripItemParamNames).map decodeItem := by
            rw [List.map_map]
            apply List.map_congr_left
            intro x _
            exact (decodeItem_strip x).symm
          rw [e1, e2, hparse]
        simp only [Option.map_some']
        rw [hdec, hpath]
    rw [hFa, ih]

/-- Witness for C1: two modules whose contents differ only in a function
parameter's name (`"a"` vs `"recipient"`) produce identical manifests. -/
theorem manifest_signatures_independent_of_param_names_witness :
    wModParamA.moduleContent ≠ wModParamB.moduleContent ∧
    buildManifest [wModParamA] = buildManifest [wModParamB] := by
  constructor
  · decide
  · apply manifest_signatures_independent_of_param_names.2.2
    exact List.Forall₂.cons ⟨rfl, rfl⟩ List.Forall₂.nil

/-- **C2 (code bug).** `artifactToModule` serializes the interface array
with `JSON.stringify(artifact.abi, null, 2)`, which preserves object-key
insertion order; `stableStringify` — whose own documentation says it is
used to compare ABI content across duplicate artifacts so that key
ordering differences do not cause false collisions — is never called by
the module pipeline.  At two artifacts whose single interface item has the
same key/value set in different insertion orders (a `List.Perm` of the
field lists), `stableStringify` agrees, yet the generated `moduleContent`
strings differ, contradicting the claimed canonical serialization. -/
theorem artifactToModule_key_order_sensitivity :
    ([(("type" : String), Json.str "function"), ("name", Json.str "transfer")].Perm
      [("name", Json.str "transfer"), ("type", Json.str "function")]) ∧
    stableStringify
        (Json.arr [Json.obj [("type", Json.str "function"), ("name", Json.str "transfer")]]) =
      stableStringify
        (Json.arr [Json.obj [("name", Json.str "transfer"), ("type", Json.str "function")]]) ∧
    (artifactToModule
        ⟨"contracts", "a.json", "Token", ".",
          [Json.obj [("type", Json.str "function"), ("name", Json.str "transfer")]]⟩
        none).moduleContent ≠
      (artifactToModule
        ⟨"contracts", "b.json", "Token", ".",
          [Json.obj [("name", Json.str "transfer"), ("type", Json.str "function")]]⟩
        none).moduleContent := by
  refine ⟨List.Perm.swap _ _ _, rfl, ?_⟩
  decide

/-! ### Dedupe/collision lemmas (C3) -/

theorem prodLexCmp_swap (f : α → α → Ordering) (g : β → β → Ordering)
    (hf : ∀ a b, f a b = (f b a).swap) (hg : ∀ a b, g a b = (g b a).swap)
    (x y : α × β) : prodLexCmp f g x y = (prodLexCmp f g y x).swap := by
  unfold prodLexCmp
  rw [hf x.1 y.1, hg x.2 y.2]
  cases f y.1 x.1 <;> simp [Ordering.swap]

theorem prodLexCmp_le_trans (f : α → α → Ordering) (g : β → β → Ordering)
    (hfeq : ∀ a b, f a b = .eq → a = b)
    (hflt : ∀ {a b c}, f a b = .lt → f b c = .lt → f a c = .lt)
    (hgle : ∀ {a b c}, g a b ≠ .gt → g b c ≠ .gt → g a c ≠ .gt)
    {x y z : α × β} (h1 : prodLexCmp f g x y ≠ .gt) (h2 : prodLexCmp f g y z ≠ .gt) :
    prodLexCmp f g x z ≠ .gt := by
  unfold prodLexCmp at *
  rcases hxy : f x.1 y.1 with _ | _ | _
  · rcases hyz : f y.1 z.1 with _ | _ | _
    · rw [hflt hxy hyz]; simp
    · have hz := hfeq _ _ hyz
      rw [← hz, hxy]; simp
    · rw [hyz] at h2; simp at h2
  · have hy := hfeq _ _ hxy
    simp only [hxy] at h1
    rcases hyz : f y.1 z.1 with _ | _ | _
    · rw [hy, hyz]; simp
    · simp only [hyz] at h2
      rw [hy, hyz]
      exact hgle h1 h2
    · rw [hyz] at h2; simp at h2
  · rw [hxy] at h1; simp at h1

theorem moduleCmp_swap (a b : GeneratedModule) : moduleCmp a b = (moduleCmp b a).swap :=
  prodLexCmp_swap strCmp (prodLexCmp strCmp strCmp) strCmp_swap
    (prodLexCmp_swap strCmp strCmp strCmp_swap strCmp_swap)
    (a.sourceId, a.contractName, a.moduleRelPath) (b.sourceId, b.contractName, b.moduleRelPath)

theorem moduleCmp_le_trans {a b c : GeneratedModule}
    (h1 : moduleCmp a b ≠ .gt) (h2 : moduleCmp b c ≠ .gt) : moduleCmp a c ≠ .gt := by
  have h1' : prodLexCmp strCmp (prodLexCmp strCmp strCmp)
      (a.sourceId, a.contractName, a.moduleRelPath)
      (b.sourceId, b.contractName, b.moduleRelPath) ≠ .gt := h1
  have h2' : prodLexCmp strCmp (prodLexCmp strCmp strCmp)
      (b.sourceId, b.contractName, b.moduleRelPath)
      (c.sourceId, c.contractName, c.moduleRelPath) ≠ .gt := h2
  show prodLexCmp strCmp (prodLexCmp strCmp strCmp)
      (a.sourceId, a.contractName, a.moduleRelPath)
      (c.sourceId, c.contractName, c.moduleRelPath) ≠ .gt
  exact prodLexCmp_le_trans strCmp (prodLexCmp strCmp strCmp)
    (fun x y h => (strCmp_eq_iff x y).mp h)
    (fun hab hbc => strCmp_lt_trans hab hbc)
    (fun hab hbc => prodLexCmp_le_trans strCmp strCmp
      (fun x y h => (strCmp_eq_iff x y).mp h)
      (fun hu hv => strCmp_lt_trans hu hv)
      (fun hu hv => strCmp_le_trans hu hv) hab hbc)
    h1' h2'

theorem firstOccs_cons (m : GeneratedModule) (l : List GeneratedModule) :
    firstOccs (m :: l) = m :: firstOccs (l.filter (·.dedupeKey ≠ m.dedupeKey)) := by
  rw [firstOccs]

theorem firstOccs_nil : firstOccs [] = [] := by
  rw [firstOccs]

theorem dedupeGo_eq (ms : List GeneratedModule) :
    ∀ (byKey : List (String × GeneratedModule)) (w : List String),
      dedupeGo byKey w ms =
        match firstConflict byKey ms with
        | some m => .error ("ABI collision for " ++ m.dedupeKey ++
            ": same source and contractName produced different ABI content")
        | none => .ok (collectKept byKey ms, w ++ collectWarns byKey ms) := by
  induction ms with
  | nil => intro byKey w; simp [dedupeGo, firstConflict, collectKept, collectWarns]
  | cons m rest ih =>
    intro byKey w
    rcases hf : byKey.find? (·.1 = m.dedupeKey) with _ | e
    · simp only [dedupeGo, firstConflict, collectKept, collectWarns, hf]
      exact ih _ w
    · by_cases hc : e.2.moduleContent = m.moduleContent
      · simp only [dedupeGo, firstConflict, collectKept, collectWarns, hf, if_pos hc]
        rw [ih byKey (w ++ ["Duplicate ABI ignored for " ++ m.dedupeKey])]
        cases hfo : firstConflict byKey rest with
        | none => simp
        | some x => simp
      · simp only [dedupeGo, firstConflict, hf, if_neg hc]

theorem firstConflict_mem : ∀ (ms : List GeneratedModule) byKey m,
    firstConflict byKey ms = some m → m ∈ ms := by
  intro ms
  induction ms with
  | nil => intro byKey m h; simp [firstConflict] at h
  | cons x rest ih =>
    intro byKey m h
    rcases hf : byKey.find? (·.1 = x.dedupeKey) with _ | e
    · simp only [firstConflict, hf] at h
      exact List.mem_cons_of_mem x (ih _ m h)
    · by_cases hc : e.2.moduleContent = x.moduleContent
      · simp only [firstConflict, hf, if_pos hc] at h
        exact List.mem_cons_of_mem x (ih _ m h)
      · simp only [firstConflict, hf, if_neg hc, Option.some.injEq] at h
        rw [← h]
        exact List.mem_cons_self x rest

theorem firstContentFrom_cons_new (m : GeneratedModule) (rest : List GeneratedModule)
    (byKey : List (String × GeneratedModule))
    (hf : byKey.find? (·.1 = m.dedupeKey) = none) (k' : String) :
    firstContentFrom byKey (m :: rest) k' =
      firstContentFrom (byKey ++ [(m.dedupeKey, m)]) rest k' := by
  unfold firstContentFrom
  rw [List.find?_append]
  rcases hb : byKey.find? (·.1 = k') with _ | e
  · simp only [hb, Option.none_or]
    by_cases hk : m.dedupeKey = k'
    · rw [find?_cons_ite, if_pos (by simp [hk]), find?_cons_ite, if_pos (by simp [hk])]
      simp
    · rw [find?_cons_ite, if_neg (by simp [hk]), find?_cons_ite, if_neg (by simp [hk])]
      simp
  · simp [hb, Option.or]

theorem firstContentFrom_cons_seen (m : GeneratedModule) (rest : List GeneratedModule)
    (byKey : List (String × GeneratedModule)) (e : String × GeneratedModule)
    (hf : byKey.find? (·.1 = m.dedupeKey) = some e) (k' : String) :
    firstContentFrom byKey (m :: rest) k' = firstContentFrom byKey rest k' := by
  unfold firstContentFrom
  rcases hb : byKey.find? (·.1 = k') with _ | e'
  · have hk : ¬ m.dedupeKey = k' := by
      intro hEq
      rw [hEq] at hf
      rw [hf] at hb
      exact Option.noConfusion hb
    rw [find?_cons_ite, if_neg (by simp [hk])]
  · simp only [hb]

theorem firstConflict_none_iff : ∀ (ms : List GeneratedModule) byKey,
    firstConflict byKey ms = none ↔
      ∀ m ∈ ms, firstContentFrom byKey ms m.dedupeKey = some m.moduleContent := by
  intro ms
  induction ms with
  | nil => intro byKey; simp [firstConflict]
  | cons m rest ih =>
    intro byKey
    rcases hf : byKey.find? (·.1 = m.dedupeKey) with _ | e
    · simp only [firstConflict, hf]
      rw [ih (byKey ++ [(m.dedupeKey, m)])]
      constructor
      · intro h x hx
        rcases List.mem_cons.mp hx with rfl | hx'
        · unfold firstContentFrom
          rw [hf, find?_cons_ite, if_pos (by simp)]
          simp
        · rw [firstContentFrom_cons_new m rest byKey hf]
          exact h x hx'
      · intro h x hx
        rw [← firstContentFrom_cons_new m rest byKey hf]
        exact h x (List.mem_cons_of_mem m hx)
    · by_cases hc : e.2.moduleContent = m.moduleContent
      · simp only [firstConflict, hf, if_pos hc]
        rw [ih byKey]
        constructor
        · intro h x hx
          rcases List.mem_cons.mp hx with rfl | hx'
          · unfold firstContentFrom
            simp only [hf]
            rw [hc]
          · rw [firstContentFrom_cons_seen m rest byKey e hf]
            exact h x hx'
        · intro h x hx
          rw [← firstContentFrom_cons_seen m rest byKey e hf]
          exact h x (List.mem_cons_of_mem m hx)
      · simp only [firstConflict, hf, if_neg hc]
        constructor
        · intro h
          exact Option.noConfusion h
        · intro h
          exfalso
          have hm := h m (List.mem_cons_self m rest)
          unfold firstContentFrom at hm
          rw [hf] at hm
          simp only [Option.some.injEq] at hm
          exact hc hm

theorem noCollisionB_iff (ms : List GeneratedModule) :
    noCollisionB ms = true ↔
      ∀ m ∈ ms, firstContentFrom [] ms m.dedupeKey = some m.moduleContent := by
  unfold noCollisionB
  rw [List.all_eq_true]
  constructor
  · intro h m hm
    have hx : (match ms.find? (·.dedupeKey = m.dedupeKey) with
        | some m₀ => decide (m.moduleContent = m₀.moduleContent)
        | none => true) = true := h m hm
    show (ms.find? (·.dedupeKey = m.dedupeKey)).map (·.moduleContent) = some m.moduleContent
    rcases hfind : ms.find? (·.dedupeKey = m.dedupeKey) with _ | m₀
    · exfalso
      have hs : (ms.find? (·.dedupeKey = m.dedupeKey)).isSome := by
        rw [List.find?_isSome]
        exact ⟨m, hm, by simp⟩
      rw [hfind] at hs
      exact Bool.noConfusion hs
    · rw [hfind] at hx
      simp only [decide_eq_true_eq] at hx
      rw [hfind]
      simp [hx]
  · intro h m hm
    have hx : (ms.find? (·.dedupeKey = m.dedupeKey)).map (·.moduleContent) =
        some m.moduleContent := h m hm
    show (match ms.find? (·.dedupeKey = m.dedupeKey) with
        | some m₀ => decide (m.moduleContent = m₀.moduleContent)
        | none => true) = true
    rcases hfind : ms.find? (·.dedupeKey = m.dedupeKey) with _ | m₀
    · rw [hfind] at hx
      exact Option.noConfusion hx
    · rw [hfind] at hx
      simp only [Option.map_some', Option.some.injEq] at hx
      rw [hfind]
      simp [hx]

theorem any_eq_isSome_find? (l : List (String × GeneratedModule)) (k : String) :
    l.any (·.1 = k) = (l.find? (·.1 = k)).isSome := by
  rcases hf : l.find? (·.1 = k) with _ | e
  · rw [hf]
    rw [List.find?_eq_none] at hf
    simp only [Option.isSome_none]
    rw [List.any_eq_false]
    exact hf
  · rw [hf]
    simp only [Option.isSome_some]
    rw [List.any_eq_true]
    refine ⟨e, List.mem_of_find?_eq_some hf, ?_⟩
    have hp := @List.find?_some _ (fun x => decide (x.1 = k)) e l hf
    simpa using hp

theorem collectKept_map : ∀ (ms : List GeneratedModule) byKey,
    (collectKept byKey ms).map (·.2) =
      byKey.map (·.2) ++
        firstOccs (ms.filter (fun m => !(byKey.any (·.1 = m.dedupeKey)))) := by
  intro ms
  induction ms with
  | nil => intro byKey; simp [collectKept, firstOccs]
  | cons m rest ih =>
    intro byKey
    rcases hf : byKey.find? (·.1 = m.dedupeKey) with _ | e
    · have hany : byKey.any (·.1 = m.dedupeKey) = false := by
        rw [any_eq_isSome_find?, hf]
        rfl
      simp only [collectKept, hf]
      rw [ih]
      rw [List.filter_cons_of_pos (by simp [hany]), firstOccs_cons]
      simp only [List.map_append, List.map_cons, List.map_nil]
      rw [List.append_assoc]
      congr 1
      rw [List.singleton_append]
      congr 1
      rw [List.filter_filter]
      congr 1
      apply List.filter_congr
      intro x _
      rw [List.any_append]
      simp only [List.any_cons, List.any_nil, Bool.or_false, Bool.not_or]
      rw [Bool.and_comm]
      congr 1
      simp [eq_comm]
    · have hany : byKey.any (·.1 = m.dedupeKey) = true := by
        rw [any_eq_isSome_find?, hf]
        rfl
      simp only [collectKept, hf]
      rw [ih]
      rw [List.filter_cons_of_neg (by simp [hany])]

theorem collectWarns_eq : ∀ (ms : List GeneratedModule) byKey,
    firstConflict byKey ms = none →
    collectWarns byKey ms =
      (dupsAfter (byKey.map (·.1)) ms).map
        (fun m => "Duplicate ABI ignored for " ++ m.dedupeKey) := by
  intro ms
  induction ms with
  | nil => intro byKey _; rfl
  | cons m rest ih =>
    intro byKey hnc
    rcases hf : byKey.find? (·.1 = m.dedupeKey) with _ | e
    · have hseen : (byKey.map (·.1)).contains m.dedupeKey = false := by
        rw [List.contains_eq_any_beq, List.any_eq_false]
        intro x hx hbeq
        rcases List.mem_map.mp hx with ⟨y, hy, hy1⟩
        have hx2 : m.dedupeKey = x := by simpa using hbeq
        exact List.find?_eq_none.mp hf y hy (by simp [hy1, hx2])
      have hnc' : firstConflict (byKey ++ [(m.dedupeKey, m)]) rest = none := by
        simp only [firstConflict, hf] at hnc
        exact hnc
      simp only [collectWarns, hf]
      rw [ih _ hnc']
      rw [dupsAfter, if_neg (by rw [hseen]; exact Bool.false_ne_true)]
      simp
    · simp only [firstConflict, hf] at hnc
      by_cases hc : e.2.moduleContent = m.moduleContent
      · rw [if_pos hc] at hnc
        have hseen : (byKey.map (·.1)).contains m.dedupeKey = true := by
          rw [List.contains_eq_any_beq, List.any_eq_true]
          refine ⟨e.1, List.mem_map.mpr ⟨e, List.mem_of_find?_eq_some hf, rfl⟩, ?_⟩
          have h1 := List.find?_some hf
          simp only [decide_eq_true_eq] at h1
          simp [h1]
        simp only [collectWarns, hf, if_pos hc]
        rw [ih byKey hnc]
        rw [dupsAfter, if_pos hseen]
        simp
      · rw [if_neg hc] at hnc
        exact Option.noConfusion hnc

/-- **C3.** `dedupeAndValidateModules` keeps the first module seen per
dedupe key; when every module's content matches the first module sharing
its key, it returns those first occurrences sorted by
`(sourceId, contractName, moduleRelPath)` together with exactly one
"Duplicate ABI ignored" warning naming the key for each later module with
an already-seen key; otherwise it throws a collision error whose message
names the dedupe key of the first conflicting module, returning no partial
result. -/
theorem dedupeAndValidateModules_spec (ms : List GeneratedModule) :
    (noCollisionB ms = true →
      dedupeAndValidateModules ms =
        .ok (sortOrd moduleCmp (firstOccs ms),
          (laterDups ms).map (fun m => "Duplicate ABI ignored for " ++ m.dedupeKey)) ∧
      (sortOrd moduleCmp (firstOccs ms)).Pairwise (fun a b => moduleCmp a b ≠ .gt)) ∧
    (noCollisionB ms = false →
      ∃ m ∈ ms, dedupeAndValidateModules ms =
        .error ("ABI collision for " ++ m.dedupeKey ++
          ": same source and contractName produced different ABI content")) := by
  constructor
  · intro h
    have hfc : firstConflict [] ms = none :=
      (firstConflict_none_iff ms []).mpr ((noCollisionB_iff ms).mp h)
    have hk : (collectKept [] ms).map (·.2) = firstOccs ms := by
      rw [collectKept_map ms []]
      simp
    have hw : collectWarns [] ms =
        (laterDups ms).map (fun m => "Duplicate ABI ignored for " ++ m.dedupeKey) := by
      rw [collectWarns_eq ms [] hfc]
      rfl
    constructor
    · unfold dedupeAndValidateModules
      rw [dedupeGo_eq ms [] []]
      simp only [hfc, Except.map, hk, hw, List.nil_append]
    · exact pairwise_sortOrd moduleCmp moduleCmp_swap
        (fun h1 h2 => moduleCmp_le_trans h1 h2) (firstOccs ms)
  · intro h
    rcases ho : firstConflict [] ms with _ | m
    · exfalso
      have h2 := (noCollisionB_iff ms).mpr ((firstConflict_none_iff ms []).mp ho)
      rw [h2] at h
      exact Bool.noConfusion h
    · refine ⟨m, firstConflict_mem ms [] m ho, ?_⟩
      unfold dedupeAndValidateModules
      rw [dedupeGo_eq ms [] []]
      simp only [ho]
      rfl

/-- Witness for C3: an identical duplicate is dropped with one warning and
the sorted survivors are returned; a conflicting duplicate yields the
collision error naming `a:Alpha`. -/
theorem dedupeAndValidateModules_spec_witness :
    dedupeAndValidateModules [wDedupA, wDedupB, wDedupA2] =
      .ok ([wDedupA, wDedupB], ["Duplicate ABI ignored for a:Alpha"]) ∧
    (∃ m ∈ [wDedupA, wDedupConflict],
      dedupeAndValidateModules [wDedupA, wDedupConflict] =
        .error ("ABI collision for " ++ m.dedupeKey ++
          ": same source and contractName produced different ABI content")) := by
  constructor
  · have h := ((dedupeAndValidateModules_spec [wDedupA, wDedupB, wDedupA2]).1 (by decide)).1
    rw [h]
    have h1 : firstOccs [wDedupA, wDedupB, wDedupA2] = [wDedupA, wDedupB] := by
      simp [firstOccs_cons, firstOccs_nil, wDedupA, wDedupB, wDedupA2]
    rw [h1]
    rfl
  · exact (dedupeAndValidateModules_spec [wDedupA, wDedupConflict]).2 (by decide)

/-! ### Manifest diff lemmas (C5) -/

theorem jsSetList_nil [DecidableEq α] : jsSetList ([] : List α) = [] := by
  rw [jsSetList]

theorem jsSetList_cons [DecidableEq α] (x : α) (xs : List α) :
    jsSetList (x :: xs) = x :: jsSetList (xs.filter (· ≠ x)) := by
  rw [jsSetList]

theorem mem_jsSetList_aux [DecidableEq α] :
    ∀ (n : Nat) (l : List α), l.length ≤ n → ∀ x, (x ∈ jsSetList l ↔ x ∈ l)
  | 0, [], _, x => by simp [jsSetList_nil]
  | 0, y :: ys, h, x => by simp at h
  | n + 1, [], _, x => by simp [jsSetList_nil]
  | n + 1, y :: ys, h, x => by
    rw [jsSetList_cons, List.mem_cons, List.mem_cons]
    rw [mem_jsSetList_aux n (ys.filter (· ≠ y))
      (le_trans (List.length_filter_le _ _) (Nat.le_of_succ_le_succ h)) x]
    rw [List.mem_filter]
    constructor
    · rintro (rfl | ⟨hmem, _⟩)
      · exact Or.inl rfl
      · exact Or.inr hmem
    · rintro (rfl | hm)
      · exact Or.inl rfl
      · by_cases hxy : x = y
        · exact Or.inl hxy
        · exact Or.inr ⟨hm, by simp [hxy]⟩

theorem mem_jsSetList_iff [DecidableEq α] (l : List α) (x : α) :
    x ∈ jsSetList l ↔ x ∈ l :=
  mem_jsSetList_aux l.length l le_rfl x

theorem jsSetList_of_nodup_aux [DecidableEq α] :
    ∀ (n : Nat) (l : List α), l.length ≤ n → l.Nodup → jsSetList l = l
  | 0, [], _, _ => jsSetList_nil
  | 0, y :: ys, h, _ => by simp at h
  | n + 1, [], _, _ => jsSetList_nil
  | n + 1, y :: ys, h, hnd => by
    rw [jsSetList_cons]
    have hy : ys.filter (· ≠ y) = ys := by
      rw [List.filter_eq_self]
      intro a ha
      simp only [decide_eq_true_eq]
      intro heq
      rw [heq] at ha
      exact (List.nodup_cons.mp hnd).1 ha
    rw [hy, jsSetList_of_nodup_aux n ys (Nat.le_of_succ_le_succ h) (List.nodup_cons.mp hnd).2]

theorem jsSetList_of_nodup [DecidableEq α] (l : List α) (h : l.Nodup) : jsSetList l = l :=
  jsSetList_of_nodup_aux l.length l le_rfl h

theorem contains_iff_mem (l : List String) (a : String) : l.contains a = true ↔ a ∈ l := by
  rw [List.contains_eq_any_beq, List.any_eq_true]
  constructor
  · rintro ⟨x, hx, hbeq⟩
    have hax : a = x := by simpa using hbeq
    rw [hax]
    exact hx
  · intro h
    exact ⟨a, h, by simp⟩

theorem mem_diffSide (A B : List String) (s : String) :
    s ∈ sortOrd strCmp ((jsSetList A).filter (fun t => !(jsSetList B).contains t)) ↔
      (s ∈ A ∧ s ∉ B) := by
  rw [mem_sortOrd, List.mem_filter, mem_jsSetList_iff]
  constructor
  · rintro ⟨h1, h2⟩
    refine ⟨h1, fun hB => ?_⟩
    rw [(contains_iff_mem _ _).mpr ((mem_jsSetList_iff B s).mpr hB)] at h2
    simp at h2
  · rintro ⟨h1, h2⟩
    refine ⟨h1, ?_⟩
    have hcf : (jsSetList B).contains s = false := by
      rw [← Bool.not_eq_true]
      intro hc
      exact h2 ((mem_jsSetList_iff B s).mp ((contains_iff_mem _ _).mp hc))
    rw [hcf]
    rfl

theorem diff_changed_mem (prev cur : List (String × List String)) (k : String)
    (da dr : List String) :
    (k, da, dr) ∈ (diffManifests prev cur).changed ↔
      (k ∈ cur.map (·.1) ∧ (jsSetList (prev.map (·.1))).contains k = true ∧
       da = sortOrd strCmp ((jsSetList (lookupD cur k)).filter
         (fun s => !(jsSetList (lookupD prev k)).contains s)) ∧
       dr = sortOrd strCmp ((jsSetList (lookupD prev k)).filter
         (fun s => !(jsSetList (lookupD cur k)).contains s)) ∧
       (da.length > 0 ∨ dr.length > 0)) := by
  have hch : (diffManifests prev cur).changed = (jsSetList (cur.map (·.1))).filterMap
      (fun key =>
        if (jsSetList (prev.map (·.1))).contains key then
          if (sortOrd strCmp ((jsSetList (lookupD cur key)).filter
              (fun s => !(jsSetList (lookupD prev key)).contains s))).length > 0 ∨
             (sortOrd strCmp ((jsSetList (lookupD prev key)).filter
              (fun s => !(jsSetList (lookupD cur key)).contains s))).length > 0 then
            some (key,
              sortOrd strCmp ((jsSetList (lookupD cur key)).filter
                (fun s => !(jsSetList (lookupD prev key)).contains s)),
              sortOrd strCmp ((jsSetList (lookupD prev key)).filter
                (fun s => !(jsSetList (lookupD cur key)).contains s)))
          else none
        else none) := by
    simp only [diffManifests]
  rw [hch, List.mem_filterMap]
  constructor
  · rintro ⟨a, ha, hfa⟩
    split at hfa
    next hpc =>
      split at hfa
      next hcond =>
        simp only [Option.some.injEq, Prod.mk.injEq] at hfa
        obtain ⟨rfl, hda, hdr⟩ := hfa
        rw [hda, hdr] at hcond
        exact ⟨(mem_jsSetList_iff _ _).mp ha, hpc, hda.symm, hdr.symm, hcond⟩
      next => exact absurd hfa (by simp)
    next => exact absurd hfa (by simp)
  · rintro ⟨hkc, hpc, hda, hdr, hlen⟩
    refine ⟨k, (mem_jsSetList_iff _ _).mpr hkc, ?_⟩
    rw [hda, hdr] at hlen
    rw [if_pos hpc, if_pos hlen, hda, hdr]

/-- **C5.** `diffManifests` is reflexively empty (`diff m m` has no added,
removed or changed entries); the top-level `added` and `removed` key lists
are sorted; a key present in both manifests appears in `changed` exactly
when the symmetric difference of its two signature lists is non-empty, and
any `changed` entry's `added`/`removed` sublists are sorted and hold
exactly the one-sided differences of the two signature lists. -/
theorem diffManifests_spec :
    (∀ m, diffManifests m m = ⟨[], [], []⟩) ∧
    (∀ prev cur,
      (diffManifests prev cur).added.Pairwise (fun a b => strCmp a b ≠ .gt) ∧
      (diffManifests prev cur).removed.Pairwise (fun a b => strCmp a b ≠ .gt)) ∧
    (∀ prev cur k, k ∈ prev.map (·.1) → k ∈ cur.map (·.1) →
      ((∃ da dr, (k, da, dr) ∈ (diffManifests prev cur).changed) ↔
        ∃ s, (s ∈ lookupD cur k ∧ s ∉ lookupD prev k) ∨
          (s ∈ lookupD prev k ∧ s ∉ lookupD cur k)) ∧
      (∀ da dr, (k, da, dr) ∈ (diffManifests prev cur).changed →
        da.Pairwise (fun a b => strCmp a b ≠ .gt) ∧
        dr.Pairwise (fun a b => strCmp a b ≠ .gt) ∧
        (∀ s, s ∈ da ↔ (s ∈ lookupD cur k ∧ s ∉ lookupD prev k)) ∧
        (∀ s, s ∈ dr ↔ (s ∈ lookupD prev k ∧ s ∉ lookupD cur k)))) := by
  have hfilt : ∀ (keys : List String), keys.filter (fun k => !keys.contains k) = [] := by
    intro keys
    rw [List.filter_eq_nil_iff]
    intro a ha
    simp
    exact ha
  refine ⟨?_, ?_, ?_⟩
  · intro m
    simp only [diffManifests]
    rw [ManifestDiff.mk.injEq]
    refine ⟨?_, ?_, ?_⟩
    · rw [hfilt]
      rfl
    · rw [hfilt]
      rfl
    · rw [List.filterMap_eq_nil_iff]
      intro a ha
      rw [if_pos ((contains_iff_mem _ _).mpr ha), hfilt (jsSetList (lookupD m a)),
        if_neg (by simp [sortOrd])]
  · intro prev cur
    constructor
    · have h : (diffManifests prev cur).added = sortOrd strCmp
          ((jsSetList (cur.map (·.1))).filter
            (fun k => !(jsSetList (prev.map (·.1))).contains k)) := by
        simp only [diffManifests]
      rw [h]
      exact pairwise_sortOrd strCmp strCmp_swap (fun h1 h2 => strCmp_le_trans h1 h2) _
    · have h : (diffManifests prev cur).removed = sortOrd strCmp
          ((jsSetList (prev.map (·.1))).filter
            (fun k => !(jsSetList (cur.map (·.1))).contains k)) := by
        simp only [diffManifests]
      rw [h]
      exact pairwise_sortOrd strCmp strCmp_swap (fun h1 h2 => strCmp_le_trans h1 h2) _
  · intro prev cur k hkp hkc
    constructor
    · constructor
      · rintro ⟨da, dr, hmem⟩
        rw [diff_changed_mem] at hmem
        obtain ⟨_, _, hda, hdr, hlen⟩ := hmem
        rcases hlen with hl | hl
        · obtain ⟨s, hs⟩ := List.exists_mem_of_length_pos hl
          rw [hda] at hs
          obtain ⟨h1, h2⟩ := (mem_diffSide _ _ s).mp hs
          exact ⟨s, Or.inl ⟨h1, h2⟩⟩
        · obtain ⟨s, hs⟩ := List.exists_mem_of_length_pos hl
          rw [hdr] at hs
          obtain ⟨h1, h2⟩ := (mem_diffSide _ _ s).mp hs
          exact ⟨s, Or.inr ⟨h1, h2⟩⟩
      · rintro ⟨s, hcase⟩
        refine ⟨sortOrd strCmp ((jsSetList (lookupD cur k)).filter
            (fun t => !(jsSetList (lookupD prev k)).contains t)),
          sortOrd strCmp ((jsSetList (lookupD prev k)).filter
            (fun t => !(jsSetList (lookupD cur k)).contains t)), ?_⟩
        rw [diff_changed_mem]
        refine ⟨hkc, (contains_iff_mem _ _).mpr ((mem_jsSetList_iff _ _).mpr hkp),
          rfl, rfl, ?_⟩
        rcases hcase with ⟨h1, h2⟩ | ⟨h1, h2⟩
        · exact Or.inl (List.length_pos_of_mem ((mem_diffSide _ _ s).mpr ⟨h1, h2⟩))
        · exact Or.inr (List.length_pos_of_mem ((mem_diffSide _ _ s).mpr ⟨h1, h2⟩))
    · intro da dr hmem
      rw [diff_changed_mem] at hmem
      obtain ⟨_, _, hda, hdr, _⟩ := hmem
      subst hda
      subst hdr
      exact ⟨pairwise_sortOrd strCmp strCmp_swap (fun h1 h2 => strCmp_le_trans h1 h2) _,
        pairwise_sortOrd strCmp strCmp_swap (fun h1 h2 => strCmp_le_trans h1 h2) _,
        fun s => mem_diffSide _ _ s, fun s => mem_diffSide _ _ s⟩

/-- Witness for C5: on manifests mapping `a` to `["f()", "g()"]` and to
`["f()", "h()"]`, the key `a` is in both, the changed entry
`("a", ["h()"], ["g()"])` is present, the changed-iff instance holds, and
the entry's added sublist holds exactly the one-sided difference. -/
theorem diffManifests_spec_witness :
    (("a", ["h()"], ["g()"]) ∈
      (diffManifests [("a", ["f()", "g()"])] [("a", ["f()", "h()"])]).changed) ∧
    ((∃ da dr, ("a", da, dr) ∈
        (diffManifests [("a", ["f()", "g()"])] [("a", ["f()", "h()"])]).changed) ↔
      ∃ s, (s ∈ lookupD [("a", ["f()", "h()"])] "a" ∧
              s ∉ lookupD [("a", ["f()", "g()"])] "a") ∨
           (s ∈ lookupD [("a", ["f()", "g()"])] "a" ∧
              s ∉ lookupD [("a", ["f()", "h()"])] "a")) ∧
    (∀ s, s ∈ (["h()"] : List String) ↔
      (s ∈ lookupD [("a", ["f()", "h()"])] "a" ∧
        s ∉ lookupD [("a", ["f()", "g()"])] "a")) := by
  have hjs1 : jsSetList ((["f()", "g()"] : List String)) = ["f()", "g()"] :=
    jsSetList_of_nodup _ (by decide)
  have hjs2 : jsSetList ((["f()", "h()"] : List String)) = ["f()", "h()"] :=
    jsSetList_of_nodup _ (by decide)
  have hmem : ("a", ["h()"], ["g()"]) ∈
      (diffManifests [("a", ["f()", "g()"])] [("a", ["f()", "h()"])]).changed := by
    rw [diff_changed_mem]
    refine ⟨by decide, ?_, ?_, ?_, ?_⟩
    · rw [show ([("a", ["f()", "g()"])] : List (String × List String)).map (·.1) = ["a"]
        from rfl]
      rw [jsSetList_of_nodup _ (by decide)]
      decide
    · rw [show lookupD [("a", ["f()", "h()"])] "a" = ["f()", "h()"] from rfl,
        show lookupD [("a", ["f()", "g()"])] "a" = ["f()", "g()"] from rfl, hjs1, hjs2]
      decide
    · rw [show lookupD [("a", ["f()", "h()"])] "a" = ["f()", "h()"] from rfl,
        show lookupD [("a", ["f()", "g()"])] "a" = ["f()", "g()"] from rfl, hjs1, hjs2]
      decide
    · left
      decide
  refine ⟨hmem, ?_, ?_⟩
  · exact ((diffManifests_spec.2.2 [("a", ["f()", "g()"])] [("a", ["f()", "h()"])] "a")
      (by decide) (by decide)).1
  · exact (((diffManifests_spec.2.2 [("a", ["f()", "g()"])] [("a", ["f()", "h()"])] "a")
      (by decide) (by decide)).2 ["h()"] ["g()"] hmem).2.2.1

/-! ### Glob compilation and matching lemmas (C6) -/

theorem foldr_frag_append (h : Char → List Char) (xs : List Char) (acc : List Char) :
    xs.foldr (fun c a => h c ++ a) acc = xs.foldr (fun c a => h c ++ a) [] ++ acc := by
  induction xs with
  | nil => simp
  | cons x xs ih => simp [ih, List.append_assoc]

theorem replaceStar_append (xs ys : List Char) :
    replaceStar (xs ++ ys) = replaceStar xs ++ replaceStar ys := by
  unfold replaceStar
  rw [List.foldr_append, foldr_frag_append]

theorem replaceQm_append (xs ys : List Char) :
    replaceQm (xs ++ ys) = replaceQm xs ++ replaceQm ys := by
  unfold replaceQm
  rw [List.foldr_append, foldr_frag_append]

theorem compileGlobRegex_cons (c : Char) (ps : List Char) :
    compileGlobRegex (c :: ps) =
      (if c = '*' then ['.', '*'] else if c = '?' then ['.']
       else if c ∈ regexSpecials then ['\\', c] else [c]) ++ compileGlobRegex ps := by
  unfold compileGlobRegex
  have he : escapeRegExp (c :: ps) =
      (if c ∈ regexSpecials then ['\\', c] else [c]) ++ escapeRegExp ps := rfl
  rw [he, replaceStar_append, replaceQm_append]
  by_cases h1 : c = '*'
  · subst h1
    rw [if_neg (show ¬('*' ∈ regexSpecials) from by decide), if_pos rfl]
    rfl
  · by_cases h2 : c = '?'
    · subst h2
      rw [if_neg (show ¬('?' ∈ regexSpecials) from by decide), if_neg (by decide), if_pos rfl]
      rfl
    · by_cases h3 : c ∈ regexSpecials
      · rw [if_pos h3, if_neg h1, if_neg h2]
        simp [replaceStar, replaceQm, h1, h2,
          show ('\\' : Char) ≠ '*' from by decide, show ('\\' : Char) ≠ '?' from by decide]
      · rw [if_neg h3, if_neg h1, if_neg h2]
        simp [replaceStar, replaceQm, h1, h2]

theorem tokenizeRegex_nil : tokenizeRegex [] = [] := by
  rw [tokenizeRegex.eq_def]

theorem tokenizeRegex_esc (c : Char) (xs : List Char) :
    tokenizeRegex ('\\' :: c :: xs) = .lit c :: tokenizeRegex xs := by
  rw [tokenizeRegex.eq_def]
  simp

theorem tokenizeRegex_dotstar (xs : List Char) :
    tokenizeRegex ('.' :: '*' :: xs) = .dotStar :: tokenizeRegex xs := by
  rw [tokenizeRegex.eq_def]
  simp [show ('.' : Char) ≠ '\\' from by decide]

theorem tokenizeRegex_dot (d : Char) (xs : List Char) (hd : d ≠ '*') :
    tokenizeRegex ('.' :: d :: xs) = .dot :: tokenizeRegex (d :: xs) := by
  rw [tokenizeRegex.eq_def]
  simp [show ('.' : Char) ≠ '\\' from by decide, hd]

theorem tokenizeRegex_dot_nil : tokenizeRegex ['.'] = [RegexTok.dot] := by
  rw [tokenizeRegex.eq_def]
  simp [show ('.' : Char) ≠ '\\' from by decide]

theorem tokenizeRegex_lit (c : Char) (xs : List Char) (h1 : c ≠ '\\') (h2 : c ≠ '.') :
    tokenizeRegex (c :: xs) = .lit c :: tokenizeRegex xs := by
  rw [tokenizeRegex.eq_def]
  simp [h1, h2]

theorem compile_head_ne_star : ∀ (p : List Char) (d : Char) (rest : List Char),
    compileGlobRegex p = d :: rest → d ≠ '*'
  | [], d, rest, h => by
    rw [show compileGlobRegex [] = [] from rfl] at h
    exact absurd h (by simp)
  | c :: ps, d, rest, h => by
    rw [compileGlobRegex_cons] at h
    by_cases h1 : c = '*'
    · subst h1
      rw [if_pos rfl,
        show (['.', '*'] : List Char) ++ compileGlobRegex ps =
          '.' :: '*' :: compileGlobRegex ps from rfl] at h
      injection h with hd _
      rw [← hd]
      decide
    · by_cases h2 : c = '?'
      · subst h2
        rw [if_neg (by decide), if_pos rfl,
          show (['.'] : List Char) ++ compileGlobRegex ps =
            '.' :: compileGlobRegex ps from rfl] at h
        injection h with hd _
        rw [← hd]
        decide
      · by_cases h3 : c ∈ regexSpecials
        · rw [if_neg h1, if_neg h2, if_pos h3,
            show (['\\', c] : List Char) ++ compileGlobRegex ps =
              '\\' :: c :: compileGlobRegex ps from rfl] at h
          injection h with hd _
          rw [← hd]
          decide
        · rw [if_neg h1, if_neg h2, if_neg h3,
            show ([c] : List Char) ++ compileGlobRegex ps =
              c :: compileGlobRegex ps from rfl] at h
          injection h with hd _
          rw [← hd]
          exact h1

theorem tokenize_compile : ∀ (p : List Char),
    tokenizeRegex (compileGlobRegex p) = p.map tokOf
  | [] => by
    rw [show compileGlobRegex [] = [] from rfl, tokenizeRegex_nil]
    rfl
  | c :: ps => by
    rw [compileGlobRegex_cons]
    by_cases h1 : c = '*'
    · subst h1
      rw [if_pos rfl,
        show (['.', '*'] : List Char) ++ compileGlobRegex ps =
          '.' :: '*' :: compileGlobRegex ps from rfl,
        tokenizeRegex_dotstar, tokenize_compile ps]
      rfl
    · by_cases h2 : c = '?'
      · subst h2
        rw [if_neg (by decide), if_pos rfl,
          show (['.'] : List Char) ++ compileGlobRegex ps = '.' :: compileGlobRegex ps from rfl]
        rcases hc : compileGlobRegex ps with _ | ⟨d, rest⟩
        · rw [tokenizeRegex_dot_nil]
          have hps := tokenize_compile ps
          rw [hc, tokenizeRegex_nil] at hps
          rw [List.map_cons, ← hps]
          rfl
        · rw [tokenizeRegex_dot d rest (compile_head_ne_star ps d rest hc), ← hc,
            tokenize_compile ps]
          rfl
      · by_cases h3 : c ∈ regexSpecials
        · rw [if_neg h1, if_neg h2, if_pos h3,
            show (['\\', c] : List Char) ++ compileGlobRegex ps =
              '\\' :: c :: compileGlobRegex ps from rfl,
            tokenizeRegex_esc, tokenize_compile ps, List.map_cons]
          congr 1
          simp [tokOf, h1, h2]
        · have hc1 : c ≠ '\\' := fun he => h3 (by rw [he]; decide)
          have hc2 : c ≠ '.' := fun he => h3 (by rw [he]; decide)
          rw [if_neg h1, if_neg h2, if_neg h3,
            show ([c] : List Char) ++ compileGlobRegex ps = c :: compileGlobRegex ps from rfl,
            tokenizeRegex_lit c _ hc1 hc2, tokenize_compile ps, List.map_cons]
          congr 1
          simp [tokOf, h1, h2]

theorem mt_nil_nil : matchToks [] [] = true := by
  rw [matchToks]

theorem mt_nil_cons (d : Char) (ds : List Char) : matchToks [] (d :: ds) = false := by
  rw [matchToks]

theorem mt_lit_cons (c : Char) (ts : List RegexTok) (d : Char) (ds : List Char) :
    matchToks (.lit c :: ts) (d :: ds) = (c = d && matchToks ts ds) := by
  rw [matchToks]

theorem mt_lit_nil (c : Char) (ts : List RegexTok) : matchToks (.lit c :: ts) [] = false := by
  rw [matchToks]

theorem mt_dot_cons (ts : List RegexTok) (d : Char) (ds : List Char) :
    matchToks (.dot :: ts) (d :: ds) = (!isLineTerm d && matchToks ts ds) := by
  rw [matchToks]

theorem mt_dot_nil (ts : List RegexTok) : matchToks (.dot :: ts) [] = false := by
  rw [matchToks]

theorem mt_star (ts : List RegexTok) (cs : List Char) :
    matchToks (.dotStar :: ts) cs = matchToksStar ts cs := by
  rw [matchToks]

theorem mts_nil (ts : List RegexTok) : matchToksStar ts [] = matchToks ts [] := by
  rw [matchToksStar]
  simp

theorem mts_cons (ts : List RegexTok) (d : Char) (ds : List Char) :
    matchToksStar ts (d :: ds) =
      (matchToks ts (d :: ds) || (!isLineTerm d && matchToksStar ts ds)) := by
  rw [matchToksStar]

theorem g_nil_nil (e : Bool) : globMatchChars e [] [] = true := by
  rw [globMatchChars.eq_def]

theorem g_nil_cons (e : Bool) (d : Char) (ds : List Char) :
    globMatchChars e [] (d :: ds) = false := by
  rw [globMatchChars.eq_def]

theorem g_star_nil (e : Bool) (ps : List Char) :
    globMatchChars e ('*' :: ps) [] = globMatchChars e ps [] := by
  rw [globMatchChars.eq_def]
  simp

theorem g_star_cons (e : Bool) (ps : List Char) (d : Char) (ds : List Char) :
    globMatchChars e ('*' :: ps) (d :: ds) =
      (globMatchChars e ps (d :: ds) ||
        ((!e || !isLineTerm d) && globMatchChars e ('*' :: ps) ds)) := by
  rw [globMatchChars.eq_def]
  simp

theorem g_qm_nil (e : Bool) (ps : List Char) : globMatchChars e ('?' :: ps) [] = false := by
  rw [globMatchChars.eq_def]
  simp

theorem g_qm_cons (e : Bool) (ps : List Char) (d : Char) (ds : List Char) :
    globMatchChars e ('?' :: ps) (d :: ds) =
      ((!e || !isLineTerm d) && globMatchChars e ps ds) := by
  rw [globMatchChars.eq_def]
  simp

theorem g_lit_nil (e : Bool) (c : Char) (ps : List Char) (h1 : c ≠ '*') (h2 : c ≠ '?') :
    globMatchChars e (c :: ps) [] = false := by
  rw [globMatchChars.eq_def]
  simp [h1, h2]

theorem g_lit_cons (e : Bool) (c : Char) (ps : List Char) (d : Char) (ds : List Char)
    (h1 : c ≠ '*') (h2 : c ≠ '?') :
    globMatchChars e (c :: ps) (d :: ds) = (c = d && globMatchChars e ps ds) := by
  rw [globMatchChars.eq_def]
  simp [h1, h2]

theorem matchToks_glob_aux : ∀ (n : Nat) (p cs : List Char),
    2 * cs.length + p.length ≤ n →
    matchToks (p.map tokOf) cs = globMatchChars true p cs := by
  intro n
  induction n with
  | zero =>
    intro p cs h
    cases p with
    | nil =>
      cases cs with
      | nil => rw [show (([] : List Char).map tokOf) = [] from rfl, mt_nil_nil, g_nil_nil]
      | cons d ds => simp only [List.length_cons] at h; omega
    | cons c ps => simp only [List.length_cons] at h; omega
  | succ n ih =>
    intro p cs h
    cases p with
    | nil =>
      cases cs with
      | nil => rw [show (([] : List Char).map tokOf) = [] from rfl, mt_nil_nil, g_nil_nil]
      | cons d ds =>
        rw [show (([] : List Char).map tokOf) = [] from rfl, mt_nil_cons, g_nil_cons]
    | cons c ps =>
      by_cases h1 : c = '*'
      · subst h1
        rw [List.map_cons, show tokOf '*' = RegexTok.dotStar from rfl, mt_star]
        cases cs with
        | nil =>
          rw [mts_nil, g_star_nil]
          exact ih ps [] (by simp only [List.length_cons] at h ⊢; omega)
        | cons d ds =>
          have hs : matchToksStar (ps.map tokOf) ds = globMatchChars true ('*' :: ps) ds := by
            have hi := ih ('*' :: ps) ds (by simp only [List.length_cons] at h ⊢; omega)
            rw [List.map_cons, show tokOf '*' = RegexTok.dotStar from rfl, mt_star] at hi
            exact hi
          rw [mts_cons, g_star_cons,
            ih ps (d :: ds) (by simp only [List.length_cons] at h ⊢; omega), hs]
          simp
      · by_cases h2 : c = '?'
        · subst h2
          rw [List.map_cons, show tokOf '?' = RegexTok.dot from rfl]
          cases cs with
          | nil => rw [mt_dot_nil, g_qm_nil]
          | cons d ds =>
            rw [mt_dot_cons, g_qm_cons,
              ih ps ds (by simp only [List.length_cons] at h ⊢; omega)]
            simp
        · rw [List.map_cons, show tokOf c = RegexTok.lit c from by simp [tokOf, h1, h2]]
          cases cs with
          | nil => rw [mt_lit_nil, g_lit_nil true c ps h1 h2]
          | cons d ds =>
            rw [mt_lit_cons, g_lit_cons true c ps d ds h1 h2,
              ih ps ds (by simp only [List.length_cons] at h ⊢; omega)]

theorem matchToks_glob (p cs : List Char) :
    matchToks (p.map tokOf) cs = globMatchChars true p cs :=
  matchToks_glob_aux (2 * cs.length + p.length) p cs le_rfl

/-- Counterexample for C6 as stated: the claim says `?` matches exactly one
character (any character), so the pattern `"?"` should match the one-character
filename `"\n"`; the compiled JavaScript regex `^.$` does not, because `.`
never matches a line terminator.  `matchesAnySpec` is the claim's reading;
`matchesAny` is the code's behaviour. -/
theorem matchesAny_lineterm_counterexample :
    matchesAnySpec "\n" ["?"] none = true ∧ matchesAny "\n" ["?"] none = false := by
  constructor
  · show (globMatchChars false ['?'] ['\n'] || false) = true
    rw [g_qm_cons, g_nil_nil]
    decide
  · show (matchToks (tokenizeRegex (compileGlobRegex ['?'])) ['\n'] || false) = false
    rw [show compileGlobRegex ['?'] = ['.'] from rfl, tokenizeRegex_dot_nil, mt_dot_cons,
      mt_nil_nil]
    decide

/-- **C6 (amended).** `matchesAny` with an empty pattern list returns false
for every filename, and in general equals, for each pattern, direct glob
matching of the bare filename — or of the full relative path when the
pattern contains `/` and a relative path is given — where `*` matches zero
or more characters, `?` matches exactly one character, and every other
character matches only itself, except that the characters consumed by `*`
and `?` may not be line terminators (`\n`, `\r`, U+2028, U+2029), since
the compiled JavaScript `.` never matches a line terminator.  The function
is total (never throws) on every pattern list. -/
theorem matchesAny_glob_semantics :
    (∀ f r, matchesAny f [] r = false) ∧
    (∀ f ps r, matchesAny f ps r = ps.any (fun p =>
      globMatchChars true p.toList
        ((if p.toList.contains '/' then r.getD f else f).toList))) := by
  constructor
  · intro f r
    rfl
  · intro f ps r
    simp only [matchesAny]
    induction ps with
    | nil => rfl
    | cons q qs ih =>
      simp only [List.any_cons]
      rw [ih, tokenize_compile, matchToks_glob]

end Abis
